import Mathlib

/-!
Verification development for the unarXive LaTeX-processing pipeline
(`normalize_arxiv_dump.py`, `convert_latex_to_gorc.py`).

The Python sources are shallowly embedded: the XML parse tree handled by
BeautifulSoup becomes the inductive type `Node`; in-place tree mutation
(`replace_with`, `decompose`) becomes pure tree transforms applied in the
same order as the source; code that can raise (`AttributeError` from
`cite.ref.get('target').upper()`, `IndexError` from `name_parts[0]`)
returns `Except PyErr`.  Strings are Lean `String`s viewed as lists of
characters, matching Python's code-point indexing.
-/

/-! ## Python string primitives -/

/-- Character class of Python's regex `\s` (the ASCII whitespace characters;
the rarely-relevant non-ASCII additions of Python's `str` patterns are not
modelled). -/
def isPyWs (c : Char) : Bool :=
  c = ' ' || c = '\t' || c = '\n' || c = '\r' || c = '\x0b' || c = '\x0c'

/-- Models `re.sub(r'\s', ' ', s)`: each whitespace character is replaced by
one space character; runs are not collapsed. -/
def wsToSpace (s : String) : String :=
  String.mk (s.data.map (fun c => if isPyWs c then ' ' else c))

/-- Character-by-character collapsing pass: the flag records whether the
previous character belonged to a whitespace run already emitted as one
space. -/
def collapseGo (inRun : Bool) : List Char → List Char
  | [] => []
  | c :: cs =>
    if isPyWs c then
      if inRun then collapseGo true cs else ' ' :: collapseGo true cs
    else c :: collapseGo false cs

/-- Models `re.sub(r'\s+', ' ', s)` on characters: every maximal run of
whitespace becomes a single space. -/
def collapseWsL (cs : List Char) : List Char := collapseGo false cs

/-- Models `re.sub(r'\s+', ' ', s)`. -/
def collapseWs (s : String) : String :=
  String.mk (collapseWsL s.data)

/-- Models Python `str.strip()`: drop leading and trailing whitespace. -/
def pyStrip (s : String) : String :=
  String.mk (((s.data.dropWhile isPyWs).reverse.dropWhile isPyWs).reverse)

/-- Word-accumulating splitter behind `pySplitWsL` (`cur` is the pending
word, reversed). -/
def splitWsGo (cur : List Char) : List Char → List (List Char)
  | [] => if cur.isEmpty then [] else [cur.reverse]
  | c :: cs =>
    if isPyWs c then
      if cur.isEmpty then splitWsGo [] cs else cur.reverse :: splitWsGo [] cs
    else splitWsGo (c :: cur) cs

/-- Models Python `str.split()` (no argument): split on whitespace runs,
discarding empty pieces. -/
def pySplitWsL (cs : List Char) : List (List Char) := splitWsGo [] cs

/-- Models Python `str.split()`. -/
def pySplitWs (s : String) : List String :=
  (pySplitWsL s.data).map String.mk

/-- Models Python `str.split(sep)` for a one-character separator: empty
pieces are kept. -/
def splitOnCharL (sep : Char) : List Char → List (List Char)
  | [] => [[]]
  | c :: cs =>
    if c = sep then [] :: splitOnCharL sep cs
    else
      match splitOnCharL sep cs with
      | [] => [[c]]
      | w :: ws => (c :: w) :: ws

/-- Models Python `str.split(sep)` for a one-character separator. -/
def splitOnChar (sep : Char) (s : String) : List String :=
  (splitOnCharL sep s.data).map String.mk

/-- Models Python `str.upper()` (ASCII letters; the inputs are bibliography
keys and tag names). -/
def strUpper (s : String) : String :=
  String.mk (s.data.map Char.toUpper)

/-- Models Python `str.startswith('bid')` on a target attribute value. -/
def startsWithBid (s : String) : Bool :=
  s.data.take 3 = ['b', 'i', 'd']

/-- Models `re.match(r'\d{4}', s)` being truthy: the string begins with at
least four digits. -/
def startsWith4Digits (s : String) : Bool :=
  (s.data.take 4).length = 4 && (s.data.take 4).all Char.isDigit

/-- Tests whether a string contains two adjacent whitespace characters (used
to state the whitespace-collapsing claim). -/
def hasWsRun : List Char → Bool
  | [] => false
  | [_] => false
  | a :: b :: r => (isPyWs a && isPyWs b) || hasWsRun (b :: r)

/-! ## Citation-mention spans (`re.finditer(r'BID\d+', text)`) -/

/-- A citation-mention span `[start, end, token]` as built in
`process_paragraph`: `span.start()`, `span.start() + len(span.group())`,
`span.group()`. -/
structure Span where
  start : Nat
  stop : Nat
  token : String
deriving Repr, DecidableEq

/-- Attempts the regex `BID\d+` anchored at the head of the character list:
literal `BID` followed by the maximal (greedy) nonempty digit run.  Returns
the matched characters. -/
def bidTok (cs : List Char) : Option (List Char) :=
  match cs with
  | 'B' :: 'I' :: 'D' :: rest =>
    let ds := rest.takeWhile Char.isDigit
    if ds.isEmpty then none else some ('B' :: 'I' :: 'D' :: ds)
  | _ => none

/-- Models `re.finditer(r'BID\d+', text)`: scan left to right; at each
position not inside a previous match try `bidTok`; on a match emit the span
and resume at the match end (the `skip` counter carries the remaining
length of the emitted token); otherwise advance one character. -/
def scanBIDsAux : List Char → Nat → Nat → List Span
  | [], _, _ => []
  | _ :: cs, pos, k + 1 => scanBIDsAux cs (pos + 1) k
  | c :: cs, pos, 0 =>
    match bidTok (c :: cs) with
    | some tok =>
      ⟨pos, pos + tok.length, String.mk tok⟩ :: scanBIDsAux cs (pos + 1) (tok.length - 1)
    | none => scanBIDsAux cs (pos + 1) 0

/-- All `BID\d+` matches of a text, in scan order, as spans. -/
def scanBIDs (s : String) : List Span := scanBIDsAux s.data 0 0

/-- Python slice `text[start:end]` on code points. -/
def sliceStr (s : String) (a b : Nat) : String :=
  String.mk ((s.data.drop a).take (b - a))

/-- The token shape `BID\d+`: literal `BID` then one or more digits. -/
def isBidToken (s : String) : Bool :=
  match s.data with
  | 'B' :: 'I' :: 'D' :: ds => !ds.isEmpty && ds.all Char.isDigit
  | _ => false

/-! ## The parse tree (BeautifulSoup model)

A bs4 tree is either a NavigableString or a Tag with a name, attributes
and children.  Functions come in mutually recursive pairs (node level /
child-list level) so that they are structurally recursive and computable
by `rfl`.  In-place mutation becomes a pure transform; aliasing corner
cases (a paragraph nested inside another paragraph sees the outer
paragraph's earlier in-place edits in the source, but is processed from
the unedited value here) are outside the modelled domain. -/

inductive Node where
  | text : String → Node
  | elem : String → List (String × String) → List Node → Node

/-- Tag-name test (`el.name == nm`); a NavigableString has name `None`. -/
def isNamed (nm : String) : Node → Bool
  | .text _ => false
  | .elem n _ _ => n = nm

/-- Models bs4 `tag.get(key)`: first value bound to the attribute key. -/
def getAttrN (n : Node) (key : String) : Option String :=
  match n with
  | .text _ => none
  | .elem _ attrs _ => (attrs.find? (fun kv => kv.1 = key)).map Prod.snd

/-- The children of a tag (`tag.contents`); `len(tag)` is their count. -/
def childrenOf : Node → List Node
  | .text _ => []
  | .elem _ _ ch => ch

mutual

/-- Models bs4 `.text` / `get_text()`: concatenation of all descendant
strings in document order. -/
def getText : Node → String
  | .text s => s
  | .elem _ _ ch => getTextL ch

def getTextL : List Node → String
  | [] => ""
  | c :: cs => getText c ++ getTextL cs

end

mutual

/-- All descendant tags (the node itself included when it is a matching
tag) with the given name, in pre-order = bs4 document order. -/
def findAllSelf (nm : String) : Node → List Node
  | .text _ => []
  | .elem n a ch => (if n = nm then [Node.elem n a ch] else []) ++ findAllFor nm ch

def findAllFor (nm : String) : List Node → List Node
  | [] => []
  | c :: cs => findAllSelf nm c ++ findAllFor nm cs

end

/-- Models bs4 `tag.find_all(nm)`: matching descendants (self excluded). -/
def findAllN (nm : String) : Node → List Node
  | .text _ => []
  | .elem _ _ ch => findAllFor nm ch

/-- Models bs4 attribute access `tag.nm` / `tag.find(nm)`: the first
matching descendant, or `None`. -/
def findFirstN (nm : String) (t : Node) : Option Node :=
  (findAllN nm t).head?

mutual

/-- One `find_all(...)`-then-`replace_with(soup.new_string(rep el))` pass:
every outermost matching tag is replaced by a string node.  (Matches
nested inside a replaced tag are detached with it, as in the source.)
The node itself is also tested, mirroring a replacement pass reaching it
from an enclosing call. -/
def replaceSelf (p : Node → Bool) (rep : Node → String) : Node → Node
  | .text s => .text s
  | .elem n a ch =>
    if p (.elem n a ch) then .text (rep (.elem n a ch))
    else .elem n a (replaceFor p rep ch)

def replaceFor (p : Node → Bool) (rep : Node → String) : List Node → List Node
  | [] => []
  | c :: cs => replaceSelf p rep c :: replaceFor p rep cs

end

/-- A replacement pass over the descendants of a tag (the tag itself is
never replaced, matching `para_el.find_all(...)`). -/
def replaceInside (p : Node → Bool) (rep : Node → String) : Node → Node
  | .text s => .text s
  | .elem n a ch => .elem n a (replaceFor p rep ch)

mutual

/-- One `find_all(...)`-then-`decompose()` pass: every outermost matching
tag is deleted together with its subtree. -/
def removeSelf (p : Node → Bool) : Node → Option Node
  | .text s => some (.text s)
  | .elem n a ch =>
    if p (.elem n a ch) then none
    else some (.elem n a (removeFor p ch))

def removeFor (p : Node → Bool) : List Node → List Node
  | [] => []
  | c :: cs =>
    match removeSelf p c with
    | none => removeFor p cs
    | some c' => c' :: removeFor p cs

end

/-- A decompose pass over the descendants of a tag (the tag itself is kept,
matching `soup.find_all(...)` / `para_el.find_all(...)`). -/
def removeInside (p : Node → Bool) : Node → Node
  | .text s => .text s
  | .elem n a ch => .elem n a (removeFor p ch)

mutual

/-- Deletes the first (pre-order) tag with the given name, as in
`soup.Bibliography.decompose()`.  Returns the updated node and whether a
deletion happened. -/
def removeFirstSelf (nm : String) : Node → Option Node × Bool
  | .text s => (some (.text s), false)
  | .elem n a ch =>
    if n = nm then (none, true)
    else
      match removeFirstFor nm ch with
      | (ch', f) => (some (.elem n a ch'), f)

def removeFirstFor (nm : String) : List Node → List Node × Bool
  | [] => ([], false)
  | c :: cs =>
    match removeFirstSelf nm c with
    | (none, _) => (cs, true)
    | (some c', true) => (c' :: cs, true)
    | (some _, false) =>
      match removeFirstFor nm cs with
      | (cs', f) => (c :: cs', f)

end

/-- The tree after deleting the first tag named `nm` among the root's
descendants (the root, the soup object, is never itself deleted). -/
def removeFirstIn (nm : String) : Node → Node
  | .text s => .text s
  | .elem n a ch => .elem n a (removeFirstFor nm ch).1

mutual

/-- The outermost tags with the given name: `soup.find_all(nm)` restricted
to the ones actually processed before `decompose()` destroys any nested
namesakes. -/
def topSelf (nm : String) : Node → List Node
  | .text _ => []
  | .elem n a ch => if n = nm then [Node.elem n a ch] else topFor nm ch

def topFor (nm : String) : List Node → List Node
  | [] => []
  | c :: cs => topSelf nm c ++ topFor nm cs

end

/-! ## Errors, records -/

/-- Python exceptions that the modelled code can actually raise. -/
inductive PyErr where
  | attributeError : PyErr
  | indexError : PyErr
deriving Repr, DecidableEq

/-- One author entry built by `process_authors`.  In minimal mode the
`affiliation`/`email` keys are absent (`none`); in full mode they are
present and empty. -/
structure AuthorEntry where
  first : String
  middle : List String
  last : String
  suffix : String
  affiliation : Option (List (String × String))
  email : Option String
deriving Repr, DecidableEq

/-- A paragraph record `{text, mention_spans, section}`; the `section`
field (a Lean keyword, called `sectionName` here) is `none` for the
abstract (`"section": None`). -/
structure TextBlock where
  text : String
  mention_spans : List Span
  sectionName : Option String
deriving Repr, DecidableEq

/-- The `metadata` object of the final GORC entry. -/
structure DocMetadata where
  title : String
  authors : List AuthorEntry
  year : String
deriving Repr, DecidableEq

/-- The final GORC entry.  `abstract` is the one-element list `[abstract]`
built at the end of the script; its element is `none` exactly when the
Python variable `abstract` still holds the initial `[]` instead of a
paragraph dict. -/
structure DocumentRecord where
  paper_id : String
  metadata : DocMetadata
  abstract : List (Option TextBlock)
  body_text : List TextBlock
  bib_entries : List (String × String)
deriving Repr, DecidableEq

/-- Converts the result of a fallible list access: `none` is an
`IndexError`. -/
def exceptOfOpt : Option α → Except PyErr α
  | some a => .ok a
  | none => .error .indexError

/-- Option-valued map over a list, failing at the first failing element
(the author loop appends entries and propagates the first raise). -/
def mapOpt (f : α → Option β) : List α → Option (List β)
  | [] => some []
  | a :: l =>
    match f a with
    | none => none
    | some b =>
      match mapOpt f l with
      | none => none
      | some bs => some (b :: bs)

/-! ## `process_authors` -/

/-- Models `re.sub(r'\sand\s', ',', s)`: a whitespace character, the
literal `and`, and a whitespace character are together replaced by one
comma; scanning resumes after the match. -/
def subAndL : List Char → List Char
  | [] => []
  | c :: cs =>
    if isPyWs c then
      match cs with
      | 'a' :: 'n' :: 'd' :: d :: rest =>
        if isPyWs d then ',' :: subAndL rest
        else c :: 'a' :: 'n' :: 'd' :: d :: subAndL rest
      | cs2 => c :: subAndL cs2
    else c :: subAndL cs

/-- Models `re.sub(r'\sand\s', ',', s)`. -/
def subAnd (s : String) : String := String.mk (subAndL s.data)

/-- The recognised name suffixes of `process_authors`. -/
def suffixTokens : List String := ["Jr", "Sr", "III", "IV", "V"]

/-- The comma-separated name fragments `process_authors` iterates over:
`[n.strip() for n in author_text.split(',') if n.strip()]` after the two
`re.sub` passes. -/
def authorFrags (author_text : String) : List String :=
  (((splitOnChar ',' (wsToSpace (subAnd author_text))).map pyStrip).filter (fun n => n ≠ ""))

/-- One loop iteration of `process_authors`: split a fragment into
whitespace tokens, pop a recognised suffix, then read
`name_parts[0]`/`name_parts[1:-1]`/`name_parts[-1]`.  `none` models the
`IndexError` raised when no token remains. -/
def process_name (minimal : Bool) (name : String) : Option AuthorEntry :=
  let parts0 := pySplitWs name
  match parts0.getLast? with
  | none => none
  | some lastTok =>
    let withSfx := decide (lastTok ∈ suffixTokens)
    let parts := if withSfx then parts0.dropLast else parts0
    let sfx := if withSfx then lastTok else ""
    match parts with
    | [] => none
    | p0 :: rest =>
      some
        { first := p0
          middle := (parts.drop 1).dropLast
          last := (p0 :: rest).getLast (List.cons_ne_nil p0 rest)
          suffix := sfx
          affiliation := if minimal then none else some []
          email := if minimal then none else some "" }

/-- Models `process_authors(author_text, minimal)`; an `IndexError` from a
suffix-only fragment propagates. -/
def process_authors (minimal : Bool) (author_text : String) : Except PyErr (List AuthorEntry) :=
  match mapOpt (process_name minimal) (authorFrags author_text) with
  | some entries => .ok entries
  | none => .error .indexError

/-! ## `process_bibentry` and the bibliography walk -/

/-- Models `process_bibentry`: split on newlines, collapse `\s+` runs, map
remaining whitespace to spaces, strip, and rejoin with single spaces. -/
def process_bibentry (bib_text : String) : String :=
  String.intercalate " "
    ((splitOnChar '\n' bib_text).map (fun line => pyStrip (wsToSpace (collapseWs line))))

mutual

/-- Finds the first (pre-order) `Bibliography` tag, carrying the nearest
enclosing `p` tag met on the way down (the context `bi.find_parent('p')`
starts from). -/
def findBibSelf (pctx : Option Node) : Node → Option (Node × Option Node)
  | .text _ => none
  | .elem n a ch =>
    if n = "Bibliography" then some (.elem n a ch, pctx)
    else findBibFor (if n = "p" then some (.elem n a ch) else pctx) ch

def findBibFor (pctx : Option Node) : List Node → Option (Node × Option Node)
  | [] => none
  | c :: cs =>
    match findBibSelf pctx c with
    | some r => some r
    | none => findBibFor pctx cs

end

mutual

/-- All `bibitem` descendants in document order, each with its nearest `p`
ancestor (`bi.find_parent('p')`). -/
def bibScanSelf (pctx : Option Node) : Node → List (Node × Option Node)
  | .text _ => []
  | .elem n a ch =>
    (if n = "bibitem" then [(Node.elem n a ch, pctx)] else [])
      ++ bibScanFor (if n = "p" then some (.elem n a ch) else pctx) ch

def bibScanFor (pctx : Option Node) : List Node → List (Node × Option Node)
  | [] => []
  | c :: cs => bibScanSelf pctx c ++ bibScanFor pctx cs

end

/-- The `bibitem` tags examined by the bibliography loop: the descendants
of `soup.Bibliography`, with their nearest `p` ancestors. -/
def collectBibitems (soup : Node) : List (Node × Option Node) :=
  match findBibSelf none soup with
  | none => []
  | some (bib, pctx) => bibScanFor pctx (childrenOf bib)

/-- Python dict insertion: an existing key keeps its position and gets the
new value (last write wins); a new key is appended. -/
def dictInsert (m : List (String × String)) (k v : String) : List (String × String) :=
  if m.any (fun kv => kv.1 = k) then m.map (fun kv => if kv.1 = k then (k, v) else kv)
  else m ++ [(k, v)]

/-- The bibliography loop: skip items without a truthy `id`; otherwise
store `bibkey_map[id.upper()] = process_bibentry(bi.find_parent('p').text)`,
raising `AttributeError` when no enclosing `p` exists (`None.text`). -/
def bibFold : List (Node × Option Node) → List (String × String) →
    Except PyErr (List (String × String))
  | [], m => .ok m
  | (bi, pctx) :: rest, m =>
    match getAttrN bi "id" with
    | none => bibFold rest m
    | some id =>
      if id = "" then bibFold rest m
      else
        match pctx with
        | none => .error .attributeError
        | some p => bibFold rest (dictInsert m (strUpper id) (process_bibentry (getText p)))

/-- The whole bibliography-extraction stage. -/
def processBib (soup : Node) : Except PyErr (List (String × String)) :=
  bibFold (collectBibitems soup) []

/-! ## `process_paragraph` and the abstract variant -/

/-- A `ref` tag that the second replacement pass rewrites to `REF`: it has
a truthy `target` attribute that does not start with `bid`
(`rtag.get('target') and not rtag.get('target').startswith('bid')`). -/
def refIsBad (n : Node) : Bool :=
  isNamed "ref" n &&
    (match getAttrN n "target" with
     | some tg => tg ≠ "" && !startsWithBid tg
     | none => false)

/-- Models `cite.ref.get('target')`: the `target` attribute of the first
`ref` descendant of a `cit` tag.  `none` models the `AttributeError`
raised by `cite.ref.get(...)` (no `ref`) or by `None.upper()` (no
`target`). -/
def citRefTarget (c : Node) : Option String :=
  match findFirstN "ref" c with
  | none => none
  | some r => getAttrN r "target"

/-- The shared core of `process_paragraph` (lines 81-114) and the inline
abstract processing (lines 239-264): replace `formula`/`figure`/`table`
tags by their upper-cased names, rewrite non-`bid` `ref` tags to `REF`,
replace each `cit` tag by its upper-cased target, map every whitespace
character of the text to a space, and scan for `BID\d+` spans.  The
`float`/`note` decompositions of lines 99-105 happen after `text` has
been computed on line 97; they change only the mutated tree, never the
returned text or spans, and the mutated tree is not part of the value
model. -/
def paraCore (para : Node) : Except PyErr (String × List Span) :=
  let p1 := replaceInside (isNamed "formula") (fun _ => "FORMULA") para
  let p2 := replaceInside (isNamed "figure") (fun _ => "FIGURE") p1
  let p3 := replaceInside (isNamed "table") (fun _ => "TABLE") p2
  let p4 := replaceInside refIsBad (fun _ => "REF") p3
  if (findAllN "cit" p4).all (fun c => (citRefTarget c).isSome) then
    let txt := wsToSpace (getText (replaceInside (isNamed "cit")
      (fun c => strUpper ((citRefTarget c).getD "")) p4))
    .ok (txt, scanBIDs txt)
  else .error .attributeError

/-- Models `process_paragraph(soup, para_el, section_name)` (the `soup`
argument only supplies `new_string` and has no counterpart here). -/
def process_paragraph (para : Node) (section_name : String) : Except PyErr TextBlock :=
  (paraCore para).map
    (fun r => { text := r.1, mention_spans := r.2, sectionName := some section_name })

/-- The inline processing of a non-degenerate abstract paragraph
(lines 239-269): identical to `process_paragraph` except that the
`section` field is `None`. -/
def processAbstract (abs_p : Node) : Except PyErr TextBlock :=
  (paraCore abs_p).map
    (fun r => { text := r.1, mention_spans := r.2, sectionName := none })

/-! ## Body segmentation (lines 181-203) -/

/-- Processes the paragraph list of a `div1` subdivision
(`for p in el.find_all('p')`). -/
def processPs (st : String) : List Node → Except PyErr (List TextBlock)
  | [] => .ok []
  | p :: rest => do
    let tb ← process_paragraph p st
    let tbs ← processPs st rest
    return tb :: tbs

/-- Walks the direct children of one `div0` section, threading the running
section title: a `head` child resets the title, a `p` child becomes a
block, a `div1` child resets the title to its own `head` text (raising
`AttributeError` when it has none, `el.head.text`) and contributes each of
its `p` descendants; other children are ignored. -/
def processChildren (st : String) : List Node → Except PyErr (List TextBlock × String)
  | [] => .ok ([], st)
  | el :: rest =>
    match el with
    | .text _ => processChildren st rest
    | .elem n a ch =>
      if n = "head" then processChildren (getText (.elem n a ch)) rest
      else if n = "p" then do
        let tb ← process_paragraph (.elem n a ch) st
        let r ← processChildren st rest
        return (tb :: r.1, r.2)
      else if n = "div1" then
        match findFirstN "head" (.elem n a ch) with
        | none => .error .attributeError
        | some h => do
          let st1 := getText h
          let tbs ← processPs st1 (findAllN "p" (.elem n a ch))
          let r ← processChildren st1 rest
          return (tbs ++ r.1, r.2)
      else processChildren st rest

/-- Walks the `div0` sections in document order; the section title carries
over from one `div0` to the next (`section_title` is initialised once,
outside the loop). -/
def processDivs (st : String) : List Node → Except PyErr (List TextBlock × String)
  | [] => .ok ([], st)
  | d :: rest => do
    let r1 ← processChildren st (childrenOf d)
    let r2 ← processDivs r1.2 rest
    return (r1.1 ++ r2.1, r2.2)

/-- The body-text stage: all blocks contributed by the outermost `div0`
sections (a `div0` nested inside another is destroyed by the outer
`decompose()` before its own turn and contributes nothing). -/
def processBody (t : Node) : Except PyErr (List TextBlock) :=
  (processDivs "" (topSelf "div0" t)).map (fun r => r.1)

/-! ## Header metadata and fallbacks (lines 205-286) -/

/-- Models `try: soup.title.text except AttributeError: ""`. -/
def titleOf (t : Node) : String :=
  match findFirstN "title" t with
  | none => ""
  | some n => getText n

/-- Models `try: process_authors(soup.author.text.strip()) except
AttributeError: []`.  The `except` clause only covers the absent node; an
`IndexError` from `process_authors` propagates. -/
def authorsOf (t : Node) : Except PyErr (List AuthorEntry) :=
  match findFirstN "author" t with
  | none => .ok []
  | some n => process_authors false (pyStrip (getText n))

/-- Models `try: soup.year.text except AttributeError: ""`. -/
def yearOf (t : Node) : String :=
  match findFirstN "year" t with
  | none => ""
  | some n => getText n

/-- The year-recovery loop (lines 275-278):
`for i, p in enumerate(ps): if re.match(r'\d{4}', p.text): year = p.text;
del ps[i]`.  CPython iterator semantics: after `del ps[i]` the cursor is
already at `i + 1`, so the element that slid into position `i` is skipped;
the loop has no `break`, so every visited match overwrites `year`. -/
def yearScanFuel : Nat → List Node → Nat → String → List Node × String
  | 0, ps, _, year => (ps, year)
  | fuel + 1, ps, i, year =>
    if h : i < ps.length then
      if startsWith4Digits (getText ps[i]) then
        yearScanFuel fuel (ps.eraseIdx i) (i + 1) (getText ps[i])
      else yearScanFuel fuel ps (i + 1) year
    else (ps, year)

/-- The loop entry: `ps.length - i` bounds the number of remaining
iterations (each iteration either increments `i` or additionally shortens
the list), so the fuel never runs out before the cursor passes the end. -/
def yearScan (ps : List Node) (i : Nat) (year : String) : List Node × String :=
  yearScanFuel (ps.length - i) ps i year

/-- Models `text_len.index(max(text_len))`: the first index attaining the
maximum. -/
def idxOfMax (l : List Nat) : Nat :=
  l.findIdx (fun x => x = l.foldl max 0)

/-! ## The whole per-document extraction (lines 160-299) -/

/-- The tree after the `unexpected` noise removal (lines 163-164). -/
def afterNoise (soup : Node) : Node :=
  removeInside (isNamed "unexpected") soup

/-- The tree after the bibliography subtree is decomposed (line 175; a
no-op when there is no `Bibliography` node). -/
def afterBibRemoval (soup : Node) : Node :=
  removeFirstIn "Bibliography" (afterNoise soup)

/-- The tree the body walk runs on: after noise removal, bibliography
removal and the global float removal of lines 178-179. -/
def bodyTree (soup : Node) : Node :=
  removeInside (isNamed "float") (afterBibRemoval soup)

/-- The tree the header-metadata lookups and the abstract stage see: the
body walk has decomposed every `div0` subtree. -/
def headTree (soup : Node) : Node :=
  removeInside (isNamed "div0") (bodyTree soup)

/-- The abstract-candidate pool `ps = soup.find_all('p')` of line 224. -/
def abstractPool (soup : Node) : List Node :=
  findAllN "p" (headTree soup)

/-- The abstract block (lines 226-271): the paragraph with the longest
text is the candidate; a degenerate single-child candidate is used
verbatim with no span computation, any other candidate is processed like a
body paragraph with a `None` section. -/
def absBlockOf (ps : List Node) : Except PyErr TextBlock :=
  let abs_p := ps.getD (idxOfMax (ps.map (fun p => (getText p).data.length))) (Node.text "")
  if (childrenOf abs_p).length = 1 then
    .ok { text := wsToSpace (getText abs_p), mention_spans := [], sectionName := none }
  else processAbstract abs_p

/-- The pool after `del ps[abstract_entry]` (line 271). -/
def poolAfterAbs (ps : List Node) : List Node :=
  ps.eraseIdx (idxOfMax (ps.map (fun p => (getText p).data.length)))

/-- The year fallback (lines 274-278), guarded by `if not year and ps`. -/
def yearStep (ps1 : List Node) (year0 : String) : List Node × String :=
  if year0 = "" && !ps1.isEmpty then yearScan ps1 0 year0 else (ps1, year0)

/-- The title fallback (lines 281-282): `title = ps[0].text`. -/
def titleStep (ps2 : List Node) (title0 : String) : String :=
  if title0 = "" && !ps2.isEmpty then getText (ps2.getD 0 (Node.text "")) else title0

/-- The authors fallback (lines 285-286):
`process_authors(ps[1].text.strip())`. -/
def authorsStep (ps2 : List Node) (authors0 : List AuthorEntry) :
    Except PyErr (List AuthorEntry) :=
  if authors0.isEmpty && ps2.length > 1 then
    process_authors false (pyStrip (getText (ps2.getD 1 (Node.text ""))))
  else .ok authors0

/-- The abstract block and the metadata after the fallback recovery
(lines 221-286), starting from the pool and the looked-up metadata.
Returns `none` for the abstract when the pool is empty (the Python
variable `abstract` keeps its initial `[]`). -/
def abstractStage (ps : List Node) (title0 : String) (authors0 : List AuthorEntry)
    (year0 : String) : Except PyErr (Option TextBlock × DocMetadata) :=
  match ps with
  | [] => .ok (none, ⟨title0, authors0, year0⟩)
  | _ :: _ => do
    let absB ← absBlockOf ps
    let yr := yearStep (poolAfterAbs ps) year0
    let authors1 ← authorsStep yr.1 authors0
    return (some absB, ⟨titleStep yr.1 title0, authors1, yr.2⟩)

/-- The per-document extraction: everything the script does to one parsed
tree (lines 160-299), producing the GORC entry that is serialised. -/
def extractRecord (arxiv_id : String) (soup : Node) : Except PyErr DocumentRecord := do
  let t1 := afterNoise soup
  let bib ← processBib t1
  let t3 := bodyTree soup
  let body ← processBody t3
  let t4 := headTree soup
  let title0 := titleOf t4
  let authors0 ← authorsOf t4
  let year0 := yearOf t4
  let r ← abstractStage (abstractPool soup) title0 authors0 year0
  return { paper_id := arxiv_id
           metadata := r.2
           abstract := [r.1]
           body_text := body
           bib_entries := bib }

/-! ## Main-file locator (`normalize`, lines 117-146) -/

/-- One directory entry: a file name and its (decoded) content.
`read_file` never raises on a readable file, so content is modelled as the
string it resolves to. -/
structure DirFile where
  name : String
  content : String
deriving Repr, DecidableEq

/-- Case-insensitive character-list match of a literal pattern, consuming
it from the front (`re.I` lowers only letters; other characters compare
verbatim). -/
def matchCI : List Char → List Char → Option (List Char)
  | [], cs => some cs
  | _ :: _, [] => none
  | p :: ps, c :: cs => if p.toLower = c.toLower then matchCI ps cs else none

/-- Whether `MAIN_TEX_PATT = \begin\s*\{\s*document\s*\}` (case-insensitive)
matches at the head of the character list. -/
def docMarkerAt (cs : List Char) : Bool :=
  match matchCI "\\begin".data cs with
  | none => false
  | some r1 =>
    match r1.dropWhile isPyWs with
    | '\x7b' :: r2 =>
      match matchCI "document".data (r2.dropWhile isPyWs) with
      | none => false
      | some r3 =>
        match r3.dropWhile isPyWs with
        | '\x7d' :: _ => true
        | _ => false
    | _ => false

/-- Models `re.search(MAIN_TEX_PATT, s)`: the pattern matches at some
position. -/
def docMarkerSearch : List Char → Bool
  | [] => false
  | c :: cs => docMarkerAt (c :: cs) || docMarkerSearch cs

/-- Whether the content contains a `\begin{document}` marker. -/
def hasDocMarker (s : String) : Bool := docMarkerSearch s.data

/-- Models `os.path.splitext(name)[1]` for a plain file name: the part
from the last dot on, unless every character before that dot is itself a
dot (then the extension is empty, as for `.bashrc`). -/
def splitextExt (name : String) : String :=
  let cs := name.data
  match cs.reverse.findIdx? (fun c => c = '.') with
  | none => ""
  | some k =>
    let i := cs.length - 1 - k
    if (cs.take i).all (fun c => c = '.') then "" else String.mk (cs.drop i)

/-- Models `TEX_EXT_PATT.match(ext)`: the extension is `.tex` up to case. -/
def texExt (ext : String) : Bool :=
  ext.data.map Char.toLower = ".tex".data

/-- Models `NON_TEXT_PATT.match(ext)`: a known binary/image extension. -/
def nonTextExt (ext : String) : Bool :=
  ["pdf", "eps", "jpg", "png", "gif"].any
    (fun e => ext.data.map Char.toLower = '.' :: e.data)

/-- The `.tex` scan (lines 122-134): files whose extension is not `.tex`
are pushed onto `ignored_names`; a `.tex` file whose content has the
document marker overwrites `main_tex_path` (no `break`, so the last match
wins). -/
def scanTexPhase : List DirFile → Option String → List DirFile →
    Option String × List DirFile
  | [], main, ign => (main, ign)
  | f :: rest, main, ign =>
    if texExt (splitextExt f.name) then
      if hasDocMarker f.content then scanTexPhase rest (some f.name) ign
      else scanTexPhase rest main ign
    else scanTexPhase rest main (ign ++ [f])

/-- The fallback scan over `ignored_names` (lines 137-146): skip known
binary extensions, keep overwriting on a marker hit (again last match
wins). -/
def fallbackPhase : List DirFile → Option String → Option String
  | [], main => main
  | f :: rest, main =>
    if nonTextExt (splitextExt f.name) then fallbackPhase rest main
    else if hasDocMarker f.content then fallbackPhase rest (some f.name)
    else fallbackPhase rest main

/-- The whole main-file locator for one dump item: `.tex` files first, the
fallback only when no `.tex` file matched. -/
def locateMainTex (files : List DirFile) : Option String :=
  match scanTexPhase files none [] with
  | (some m, _) => some m
  | (none, ign) => fallbackPhase ign none

/-! ## Encoding resolver (`read_file` / `read_gzipped_file`) -/

/-- A byte string. -/
abbrev Blob := List Nat

/-- The observable outcome of one of the Python readers: a string, the
literal `False` that `read_gzipped_file` can return, or an uncaught
exception. -/
inductive PyResult where
  | str : String → PyResult
  | boolFalse : PyResult
  | raised : PyResult
deriving Repr, DecidableEq

/-- The external decoding strategies, as oracles: `none` models the raise
(`UnicodeDecodeError`/`LookupError` for strict decodes, any exception for
the replacement decode, `BadGzipFile` for decompression); `chardetEnc`
returns `none` for a falsy detection result. -/
structure Decoders where
  utf8 : Blob → Option String
  magicEnc : Blob → String
  strictDecode : String → Blob → Option String
  chardetEnc : Blob → Option String
  replaceDecode : String → Blob → Option String
  gunzip : Blob → Option Blob

/-- Models `read_file` (lines 57-76): strict default decode, then a strict
decode with the `magic`-sniffed encoding, then a replacement decode with
the `chardet` label inside a bare `try` that falls back to the empty
string; a falsy label also yields the empty string. -/
def read_file (d : Decoders) (b : Blob) : PyResult :=
  match d.utf8 b with
  | some s => .str s
  | none =>
    match d.strictDecode (d.magicEnc b) b with
    | some s => .str s
    | none =>
      match d.chardetEnc b with
      | some enc =>
        match d.replaceDecode enc b with
        | some s => .str s
        | none => .str ""
      | none => .str ""

/-- Models `read_gzipped_file` (lines 79-90): decompress, sniff, strict
decode; on failure consult `chardet`, returning the boolean `False` when
it yields no label, and running the replacement decode outside any `try`
(so its failure, like a decompression failure, propagates as `raised`). -/
def read_gzipped_file (d : Decoders) (b : Blob) : PyResult :=
  match d.gunzip b with
  | none => .raised
  | some blob =>
    match d.strictDecode (d.magicEnc blob) blob with
    | some s => .str s
    | none =>
      match d.chardetEnc blob with
      | none => .boolFalse
      | some enc =>
        match d.replaceDecode enc blob with
        | some s => .str s
        | none => .raised

/-- All decode strategies of `read_file` fail on this blob. -/
def readFileAllFail (d : Decoders) (b : Blob) : Prop :=
  d.utf8 b = none ∧ d.strictDecode (d.magicEnc b) b = none ∧
    ∀ e, d.chardetEnc b = some e → d.replaceDecode e b = none

/-! ## Citation-macro canonicalization (`NATBIB_PATT.sub(r'\cite{\3}', s)`)

`NATBIB_PATT = \cite(t|p|alt|alp|author|year|yearpar)\s*?\*?\s*?`
`(\[[^\]]*?\]\s*?)*?\s*?\*?\s*?\{([^\}]+?)\}` with `re.I`.  The lazy
quantifiers only direct the search; which characters each part can consume
is forced (whitespace only by `\s`, `*` only by `\*?`, `[` only by a
bracket group, and the required `{` ends the middle), so a deterministic
consumer recognises exactly the same matches. -/

mutual

/-- Consumes the inside of one optional-argument group `[^\]]*?\]` of
`NATBIB_PATT`, then any following whitespace and further groups.  `none`
when the group is never closed. -/
def sbBody : List Char → Option (List Char)
  | [] => none
  | ']' :: u => sbAfter u
  | _ :: u => sbBody u

/-- After a closed group: skip whitespace, open the next group if any. -/
def sbAfter : List Char → Option (List Char)
  | [] => some []
  | c :: u =>
    if isPyWs c then sbAfter u
    else if c = '[' then sbBody u
    else some (c :: u)

end

/-- Consumes `(\[[^\]]*?\]\s*?)*?`: zero or more bracketed optional
arguments, each followed by optional whitespace. -/
def bracketGroups (cs : List Char) : Option (List Char) :=
  match cs with
  | '[' :: t => sbBody t
  | _ => some cs

/-- Consumes the part of `NATBIB_PATT` after the suffix:
`\s*?\*?\s*?(\[[^\]]*?\]\s*?)*?\s*?\*?\s*?\{([^\}]+?)\}`.  Returns the
citation-key group (group 3) and the remainder after the closing brace. -/
def natbibTail (cs : List Char) : Option (List Char × List Char) :=
  let r1 := cs.dropWhile isPyWs
  let r2 := match r1 with
    | '*' :: t => t.dropWhile isPyWs
    | _ => r1
  match bracketGroups r2 with
  | none => none
  | some r4 =>
    let r5 := r4.dropWhile isPyWs
    let r6 := match r5 with
      | '*' :: t => t.dropWhile isPyWs
      | _ => r5
    match r6 with
    | '\x7b' :: t =>
      match t.dropWhile (fun c => c ≠ '\x7d') with
      | '\x7d' :: rest =>
        let g3 := t.takeWhile (fun c => c ≠ '\x7d')
        if g3.isEmpty then none else some (g3, rest)
      | _ => none
    | _ => none

/-- The suffix alternation `(t|p|alt|alp|author|year|yearpar)` in the
order the regex engine tries it. -/
def natbibSuffixList : List (List Char) :=
  [['t'], ['p'], ['a','l','t'], ['a','l','p'],
   ['a','u','t','h','o','r'], ['y','e','a','r'],
   ['y','e','a','r','p','a','r']]

/-- Tries each suffix in order; a suffix is kept only when the rest of the
pattern also matches (the engine backtracks out of a suffix whose
continuation fails). -/
def trySfx : List (List Char) → List Char → Option (List Char × List Char)
  | [], _ => none
  | sfx :: more, cs =>
    match matchCI sfx cs with
    | some r1 =>
      match natbibTail r1 with
      | some g => some g
      | none => trySfx more cs
    | none => trySfx more cs

/-- Attempts `NATBIB_PATT` at the head of the list; on success returns
group 3 and the total match length. -/
def tryNatbib (cs : List Char) : Option (List Char × Nat) :=
  match matchCI "\\cite".data cs with
  | none => none
  | some r0 =>
    match trySfx natbibSuffixList r0 with
    | none => none
    | some g => some (g.1, cs.length - g.2.length)

/-- Models `NATBIB_PATT.sub(r'\cite{\3}', s)` on characters: scan left to
right outside previous matches (the skip counter), replacing each match by
`\cite{` + group 3 + `}` and resuming after it. -/
def natbibSubGo : List Char → Nat → List Char
  | [], _ => []
  | _ :: cs, k + 1 => natbibSubGo cs k
  | c :: cs, 0 =>
    match tryNatbib (c :: cs) with
    | some r => ("\\cite\x7b".data ++ r.1 ++ ['\x7d']) ++ natbibSubGo cs (r.2 - 1)
    | none => c :: natbibSubGo cs 0

/-- Models the citation-macro canonicalization pass of `normalize`
(line 184). -/
def natbibSub (s : String) : String := String.mk (natbibSubGo s.data 0)

/-- The already-canonical texts of the idempotence claim: wherever `\cite`
occurs (case-insensitively), it is immediately followed by the opening
brace of its single argument — no natbib suffix, no star, no bracketed
optional argument. -/
def canonicalCites (s : String) : Bool :=
  s.data.tails.all (fun t =>
    match matchCI "\\cite".data t with
    | none => true
    | some u => u.head? = some '\x7b')

/-! ## Safety predicates for the extraction theorem -/

mutual

/-- Every tag in the subtree, itself included, in pre-order. -/
def elemsSelf : Node → List Node
  | .text _ => []
  | .elem n a ch => Node.elem n a ch :: elemsFor ch

def elemsFor : List Node → List Node
  | [] => []
  | c :: cs => elemsSelf c ++ elemsFor cs

end

/-- The proper tag descendants of a node. -/
def elemsIn : Node → List Node
  | .text _ => []
  | .elem _ _ ch => elemsFor ch

/-- Whether a tag carries a `target` attribute starting with `bid`. -/
def targetBid (e : Node) : Bool :=
  match getAttrN e "target" with
  | some tg => startsWithBid tg
  | none => false

/-- A `cit` tag the citation pass handles without raising, conservatively:
it has at least one tag descendant, and every tag descendant is a `ref`
whose `target` starts with `bid` (so no earlier replacement or removal
pass reaches into it, and `cite.ref.get('target')` is a string). -/
def goodCit (c : Node) : Bool :=
  !(elemsIn c).isEmpty && (elemsIn c).all (fun e => isNamed "ref" e && targetBid e)

/-- Every `cit` tag of the subtree (itself included) is good. -/
def citsOkT (t : Node) : Bool := (findAllSelf "cit" t).all goodCit

/-- Every `cit` tag among the forest is good. -/
def citsOkL (l : List Node) : Bool := (findAllFor "cit" l).all goodCit

/-- Every `div1` tag of the tree has a `head` descendant
(`el.head.text` would otherwise raise). -/
def div1HeadsOk (t : Node) : Bool :=
  (findAllN "div1" t).all (fun d => (findFirstN "head" d).isSome)

/-- Every bibliography item with a truthy `id` has an enclosing paragraph
(`bi.find_parent('p').text` would otherwise raise). -/
def bibOk (soup : Node) : Bool :=
  (collectBibitems (afterNoise soup)).all (fun bp =>
    match getAttrN bp.1 "id" with
    | none => true
    | some id => id = "" || bp.2.isSome)

/-- A comma-separated name fragment that is nothing but a recognised
suffix token: `process_name` pops it and then `name_parts[0]` raises. -/
def suffixOnly (frag : String) : Bool :=
  match pySplitWs frag with
  | [x] => decide (x ∈ suffixTokens)
  | _ => false

/-- Strictly increasing starts, and each span ends before the next starts. -/
def spansSorted : List Span → Bool
  | [] => true
  | a :: rest => rest.all (fun b => a.stop ≤ b.start && a.start < b.start) && spansSorted rest

/-- The well-formedness of a block's mention spans, as the spec states it:
every span slices its token out of the text, every token has the shape
`BID` plus digits, and the spans are strictly sorted by start and
non-overlapping. -/
def spansWF (tb : TextBlock) : Bool :=
  tb.mention_spans.all
      (fun sp => sliceStr tb.text sp.start sp.stop = sp.token && isBidToken sp.token)
    && spansSorted tb.mention_spans

/-! ## Concrete inputs used by witnesses and counterexamples -/

/-- A paragraph holding one text run. -/
def pEl (s : String) : Node := Node.elem "p" [] [Node.text s]

/-- A well-formed document tree: explicit header metadata, a bibliography,
one section with a heading, a paragraph citing `bid3`, a subdivision with
its own heading and paragraph, and a head paragraph serving as abstract. -/
def exTreeMain : Node :=
  Node.elem "[document]" []
    [ Node.elem "title" [] [Node.text "A Title"]
    , Node.elem "author" [] [Node.text "Jane Doe and John A Smith Jr"]
    , Node.elem "year" [] [Node.text "2019"]
    , Node.elem "Bibliography" []
        [ Node.elem "p" []
            [ Node.elem "bibitem" [("id", "bid3")] []
            , Node.text "B. Author. A cited paper. 2001." ] ]
    , Node.elem "div0" []
        [ Node.elem "head" [] [Node.text "Intro"]
        , Node.elem "p" []
            [ Node.text "As shown in "
            , Node.elem "cit" [] [Node.elem "ref" [("target", "bid3")] []]
            , Node.text " and "
            , Node.elem "formula" [] [Node.text "x = y"]
            , Node.text "." ]
        , Node.elem "div1" []
            [ Node.elem "head" [] [Node.text "Sub"]
            , Node.elem "p" [] [Node.text "More text."] ] ]
    , Node.elem "p" [] [Node.text "This is the abstract paragraph of the paper."]
    ]

/-- A tree whose only paragraph holds a `cit` without any `ref`:
`cite.ref` is `None` and line 95 raises `AttributeError`. -/
def badCitTree : Node :=
  Node.elem "[document]" []
    [ Node.elem "div0" []
        [ Node.elem "p" [] [Node.elem "cit" [] [Node.text "[1]"]] ] ]

/-- A paragraph with a `note` child: its text survives into the block. -/
def noteParagraph : Node :=
  Node.elem "p" []
    [ Node.elem "note" [] [Node.text "notetxt"]
    , Node.text " visible" ]

/-- A paragraph whose text has two adjacent spaces. -/
def wsParagraph : Node := pEl "a  b"

/-- A head-paragraph pool in which two paragraphs start with four digits:
the first (`1999`) is found and deleted, the deletion slides `zz` under
the cursor so it is skipped, and `2001` then overwrites the year. -/
def yearTree : Node :=
  Node.elem "[document]" []
    [ pEl "a long abstract paragraph xx"
    , pEl "1999"
    , pEl "zz"
    , pEl "2001" ]

/-- A tree with no paragraph node at all. -/
def emptyTree : Node := Node.elem "[document]" [] []

/-- Directory listing for the locator test: one `.tex` file without the
marker, two with it. -/
def exFilesC7 : List DirFile :=
  [ ⟨"a.tex", "no marker here"⟩
  , ⟨"b.tex", "x \\begin\x7bdocument\x7d y"⟩
  , ⟨"c.tex", "z \\begin \x7b document \x7d w"⟩ ]

/-- Decoding oracles on which every strategy fails (and gzip decompression
succeeds), driving both readers into their all-strategies-failed branch. -/
def failDecoders : Decoders :=
  { utf8 := fun _ => none
    magicEnc := fun _ => "x-sniffed"
    strictDecode := fun _ _ => none
    chardetEnc := fun _ => none
    replaceDecode := fun _ _ => none
    gunzip := fun b => some b }

/-- An arbitrary byte blob. -/
def exBlob : Blob := [255, 158, 0]

/-- A text whose citation macros are already canonical. -/
def canonC9 : String :=
  "intro \\cite\x7bkey1\x7d middle \\CITE\x7bk2,k3\x7d end"

/-- A directory entry the `.tex` scan can accept: `.tex` extension
(case-insensitively) and a `\begin{document}` marker in the content. -/
def texMatch (f : DirFile) : Bool :=
  texExt (splitextExt f.name) && hasDocMarker f.content

/-! # Theorems -/

/-! ## C3: float and note subtrees versus the paragraph text -/

mutual

theorem findAllSelf_removeSelf (nm : String) :
    ∀ t t', removeSelf (isNamed nm) t = some t' → findAllSelf nm t' = [] := by
  intro t t' h
  cases t with
  | text s =>
    simp only [removeSelf, Option.some.injEq] at h
    subst h
    rfl
  | elem n a ch =>
    simp only [removeSelf] at h
    by_cases hn : isNamed nm (Node.elem n a ch) = true
    · simp [hn] at h
    · simp only [hn] at h
      simp only [Bool.false_eq_true, if_false, Option.some.injEq] at h
      subst h
      have hn' : ¬n = nm := by
        simpa [isNamed] using hn
      simp only [findAllSelf, hn', if_false, List.nil_append]
      exact findAllFor_removeFor nm ch

theorem findAllFor_removeFor (nm : String) :
    ∀ l, findAllFor nm (removeFor (isNamed nm) l) = [] := by
  intro l
  cases l with
  | nil => rfl
  | cons c cs =>
    simp only [removeFor]
    cases hc : removeSelf (isNamed nm) c with
    | none => exact findAllFor_removeFor nm cs
    | some c' =>
      simp only [findAllFor, findAllSelf_removeSelf nm c c' hc, List.nil_append]
      exact findAllFor_removeFor nm cs

end

theorem findAllN_removeInside (nm : String) (t : Node) :
    findAllN nm (removeInside (isNamed nm) t) = [] := by
  cases t with
  | text s => rfl
  | elem n a ch =>
    simp only [removeInside, findAllN]
    exact findAllFor_removeFor nm ch

/-- Claim C3 is false on the code: `process_paragraph` computes `text`
(line 97) before the `note` subtrees are decomposed (lines 104-105), so
the note text `notetxt` survives into the returned block. -/
theorem claim_C3_counterexample :
    (process_paragraph noteParagraph "S").map (fun tb => tb.text) = .ok "notetxt visible" := rfl

/-- Claim C3 amended: float subtrees indeed contribute no text, but only
because lines 178-179 delete every float tree-wide before any paragraph is
processed — the tree the body walk runs on has no float node left.  The
deletions inside `process_paragraph` itself (lines 99-105) happen after
the text is extracted, so a `note` (or float) subtree still inside a
paragraph leaves its text in the block, as the counterexample shows. -/
theorem claim_C3_amended (soup : Node) :
    findAllN "float" (bodyTree soup) = [] :=
  findAllN_removeInside "float" (afterBibRemoval soup)

/-! ## C4: whitespace handling in paragraph text -/

theorem wsToSpace_only_plain_space (s : String) :
    (wsToSpace s).data.all (fun c => !isPyWs c || c = ' ') = true := by
  simp only [wsToSpace, List.all_eq_true]
  intro c hc
  simp only [List.mem_map] at hc
  obtain ⟨c0, _, rfl⟩ := hc
  by_cases h0 : isPyWs c0 = true
  · simp [h0]
  · simp only [Bool.not_eq_true] at h0
    simp [h0]

theorem paraCore_text_shape (para : Node) (r : String × List Span)
    (h : paraCore para = .ok r) : ∃ s, r.1 = wsToSpace s := by
  simp only [paraCore] at h
  split at h
  · simp only [Except.ok.injEq] at h
    subst h
    exact ⟨_, rfl⟩
  · exact absurd h (by simp)

/-- Claim C4 is false on the code: line 97 is `re.sub(r'\s', ' ', ...)`,
which maps each whitespace character to one space without collapsing
runs, so the two adjacent spaces of `a  b` survive into the block text. -/
theorem claim_C4_counterexample :
    (process_paragraph wsParagraph "S").map (fun tb => hasWsRun tb.text.data) = .ok true := rfl

/-- Claim C4 amended: the substitution replaces every whitespace character
by a single space individually (preserving relative order and run
lengths); consequently the only whitespace character occurring in a
block's text is the plain space, but runs of two or more spaces are not
collapsed (see the counterexample). -/
theorem claim_C4_amended (para : Node) (sec : String) (tb : TextBlock)
    (h : process_paragraph para sec = .ok tb) :
    tb.text.data.all (fun c => !isPyWs c || c = ' ') = true := by
  unfold process_paragraph at h
  cases hc : paraCore para with
  | error e => rw [hc] at h; exact absurd h (by simp [Except.map])
  | ok r =>
    rw [hc] at h
    simp only [Except.map, Except.ok.injEq] at h
    obtain ⟨s, hs⟩ := paraCore_text_shape para r hc
    subst h
    simp only [hs]
    exact wsToSpace_only_plain_space s

theorem claim_C4_witness :
    ∃ tb, process_paragraph wsParagraph "S" = .ok tb ∧
      tb.text.data.all (fun c => !isPyWs c || c = ' ') = true :=
  ⟨⟨"a  b", [], some "S"⟩, rfl, claim_C4_amended wsParagraph "S" _ rfl⟩

/-! ## C5: the year-recovery loop -/

theorem yearScanFuel_noMatch :
    ∀ (fuel : Nat) (ps : List Node) (i : Nat) (y : String),
      (∀ j (hj : j < ps.length), i ≤ j → startsWith4Digits (getText ps[j]) = false) →
      yearScanFuel fuel ps i y = (ps, y) := by
  intro fuel
  induction fuel with
  | zero => intro ps i y _; rfl
  | succ f ih =>
    intro ps i y hno
    simp only [yearScanFuel]
    by_cases hi : i < ps.length
    · rw [dif_pos hi, hno i hi (Nat.le_refl i)]
      simp only [Bool.false_eq_true, if_false]
      exact ih ps (i + 1) y (fun j hj hij => hno j hj (Nat.le_of_succ_le hij))
    · rw [dif_neg hi]

/-- Claim C5 amended: the loop does not break on a match; each visited
match overwrites `year` with that paragraph's full text and is deleted,
and the deletion slides the next element under the cursor so it is
skipped.  In the special case where the first pool paragraph matches and
no other paragraph matches, exactly that paragraph is consumed and its
full text becomes the year — but with several matches the last visited one
wins and all of them are deleted, as the counterexample shows. -/
theorem claim_C5_amended (p : Node) (rest : List Node)
    (hp : startsWith4Digits (getText p) = true)
    (hrest : ∀ q ∈ rest, startsWith4Digits (getText q) = false) :
    yearScan (p :: rest) 0 "" = (rest, getText p) := by
  unfold yearScan
  simp only [List.length_cons, Nat.sub_zero, yearScanFuel]
  have h0 : 0 < rest.length + 1 := Nat.succ_pos _
  rw [dif_pos h0]
  simp only [List.getElem_cons_zero, hp, if_true, List.eraseIdx_cons_zero]
  exact yearScanFuel_noMatch rest.length rest 1 (getText p)
    (fun j hj _ => hrest rest[j] (List.getElem_mem hj))

theorem claim_C5_witness :
    yearScan [pEl "1988", pEl "x"] 0 "" = ([pEl "x"], "1988") :=
  claim_C5_amended (pEl "1988") [pEl "x"] (by decide)
    (by intro q hq; simp only [List.mem_singleton] at hq; subst hq; decide)

/-- Claim C5 is false on the code: in `yearTree` the pool after removing
the abstract is `["1999", "zz", "2001"]`; the loop finds `1999`, deletes
it, skips `zz`, then finds `2001` and overwrites the year with it, so the
extractor does not use the first matching paragraph (`1999`). -/
theorem claim_C5_counterexample :
    (extractRecord "x" yearTree).map (fun r => r.metadata.year) = .ok "2001" := rfl

/-! ## C7: last matching `.tex` file wins -/

theorem scanTexPhase_fst :
    ∀ (files : List DirFile) (main : Option String) (ign : List DirFile),
      (scanTexPhase files main ign).1 =
        (((files.filter texMatch).getLast?).map DirFile.name).or main := by
  intro files
  induction files with
  | nil => intro main ign; rfl
  | cons f rest ih =>
    intro main ign
    by_cases ht : texExt (splitextExt f.name) = true
    · by_cases hm : hasDocMarker f.content = true
      · have hfm : texMatch f = true := by simp [texMatch, ht, hm]
        simp only [scanTexPhase, ht, if_true, hm, List.filter_cons, hfm]
        rw [ih (some f.name) ign, List.getLast?_cons]
        cases hl : (rest.filter texMatch).getLast? with
        | none => simp
        | some x => simp
      · have hfm : texMatch f = false := by simp [texMatch, hm]
        simp only [scanTexPhase, ht, if_true, hm, Bool.false_eq_true, if_false,
          List.filter_cons, hfm]
        exact ih main ign
    · have hfm : texMatch f = false := by simp [texMatch, ht]
      simp only [scanTexPhase, ht, Bool.false_eq_true, if_false, List.filter_cons, hfm]
      exact ih main (ign ++ [f])

/-- Claim C7: when at least one file has a `.tex` extension
(case-insensitively) and content containing the `\begin{document}` marker,
the locator returns the last such file in scan order — the scan keeps
overwriting `main_tex_path` without breaking, and the fallback over the
other files is not entered. -/
theorem claim_C7 (files : List DirFile) (hne : files.filter texMatch ≠ []) :
    locateMainTex files = some ((files.filter texMatch).getLast hne).name := by
  have h := scanTexPhase_fst files none []
  rw [List.getLast?_eq_getLast _ hne] at h
  have h2 : (scanTexPhase files none []).1 =
      some ((files.filter texMatch).getLast hne).name := h
  unfold locateMainTex
  cases hsc : scanTexPhase files none [] with
  | mk fst snd =>
    rw [hsc] at h2
    simp only at h2
    subst h2
    rfl

theorem claim_C7_witness :
    locateMainTex exFilesC7 = some "c.tex" ∧
      (exFilesC7.filter texMatch).map DirFile.name = ["b.tex", "c.tex"] := by
  have hne : exFilesC7.filter texMatch ≠ [] := by decide
  have h := claim_C7 exFilesC7 hne
  constructor
  · rw [h]; rfl
  · rfl

/-! ## C8: the encoding resolvers -/

/-- Claim C8 is false on the code: on the gzip path, when every decode
strategy fails and the detector yields no label, `read_gzipped_file`
returns the boolean `False` (line 88), not the empty string, so the
resolver does not satisfy the stated contract. -/
theorem claim_C8_counterexample :
    read_gzipped_file failDecoders exBlob = PyResult.boolFalse ∧
      PyResult.boolFalse ≠ PyResult.str "" := ⟨rfl, by simp⟩

/-- Claim C8 amended: the non-gzip resolver `read_file` never raises and
returns the empty string whenever every strategy fails; the gzip-path
resolver instead returns the boolean `False` when the detector yields no
label, and can propagate an exception from decompression or from the
unguarded replacement decode of line 89. -/
theorem claim_C8_amended (d : Decoders) (b : Blob) :
    read_file d b ≠ PyResult.raised ∧
      (readFileAllFail d b → read_file d b = PyResult.str "") := by
  constructor
  · cases h1 : d.utf8 b with
    | some s => simp [read_file, h1]
    | none =>
      cases h2 : d.strictDecode (d.magicEnc b) b with
      | some s => simp [read_file, h1, h2]
      | none =>
        cases h3 : d.chardetEnc b with
        | none => simp [read_file, h1, h2, h3]
        | some enc =>
          cases h4 : d.replaceDecode enc b with
          | some s => simp [read_file, h1, h2, h3, h4]
          | none => simp [read_file, h1, h2, h3, h4]
  · rintro ⟨h1, h2, h3⟩
    cases hc : d.chardetEnc b with
    | none => simp [read_file, h1, h2, hc]
    | some enc => simp [read_file, h1, h2, hc, h3 enc hc]

theorem claim_C8_witness :
    readFileAllFail failDecoders exBlob ∧ read_file failDecoders exBlob = PyResult.str "" := by
  have hf : readFileAllFail failDecoders exBlob := by
    refine ⟨rfl, rfl, ?_⟩
    intro e he
    exact absurd he (by simp [failDecoders])
  exact ⟨hf, (claim_C8_amended failDecoders exBlob).2 hf⟩

/-! ## C9: canonical citation macros are a fixed point -/

theorem trySfx_brace (u' : List Char) :
    trySfx natbibSuffixList ('\x7b' :: u') = none := by
  simp [trySfx, natbibSuffixList, matchCI, Char.toLower]

theorem natbibSubGo_canonical :
    ∀ cs : List Char,
      (cs.tails.all (fun t =>
        match matchCI "\\cite".data t with
        | none => true
        | some u => u.head? = some '\x7b')) = true →
      natbibSubGo cs 0 = cs := by
  intro cs
  induction cs with
  | nil => intro _; rfl
  | cons c cs ih =>
    intro h
    rw [List.tails_cons, List.all_cons] at h
    have hself := (Bool.and_eq_true_iff.mp h).1
    have hrest := (Bool.and_eq_true_iff.mp h).2
    have hnone : tryNatbib (c :: cs) = none := by
      unfold tryNatbib
      cases hm : matchCI "\\cite".data (c :: cs) with
      | none => rfl
      | some u =>
        rw [hm] at hself
        simp only at hself
        cases u with
        | nil => exact absurd hself (by simp)
        | cons u0 u' =>
          simp only [List.head?_cons, Option.some.injEq, decide_eq_true_eq] at hself
          subst hself
          simp only [trySfx_brace u']
    simp only [natbibSubGo, hnone]
    rw [ih hrest]

/-- Claim C9: on a text in which every (case-insensitive) occurrence of
`\cite` is immediately followed by the opening brace of its single
argument — no natbib suffix, no star, no bracketed optional argument —
the citation-macro canonicalization `NATBIB_PATT.sub(r'\cite{\3}', ...)`
returns the text byte-identical: the pattern requires a suffix letter
right after `\cite`, so it matches nowhere. -/
theorem claim_C9 (s : String) (h : canonicalCites s = true) : natbibSub s = s := by
  unfold natbibSub
  rw [natbibSubGo_canonical s.data h]

theorem claim_C9_witness :
    canonicalCites canonC9 = true ∧ natbibSub canonC9 = canonC9 :=
  ⟨by decide, claim_C9 canonC9 (by decide)⟩

/-! ## C10: suffix-only author fragments raise `IndexError` -/

theorem mapOpt_eq_none {α β : Type} (f : α → Option β) :
    ∀ (l : List α) (a : α), a ∈ l → f a = none → mapOpt f l = none := by
  intro l
  induction l with
  | nil => intro a ha; exact absurd ha (List.not_mem_nil a)
  | cons b l ih =>
    intro a ha hfa
    rcases List.mem_cons.mp ha with h | h
    · subst h
      simp [mapOpt, hfa]
    · cases hfb : f b with
      | none => simp [mapOpt, hfb]
      | some x => simp [mapOpt, hfb, ih a h hfa]

theorem process_name_none (minimal : Bool) (frag : String)
    (h : suffixOnly frag = true) : process_name minimal frag = none := by
  unfold suffixOnly at h
  cases hsp : pySplitWs frag with
  | nil => rw [hsp] at h; exact absurd h (by simp)
  | cons x xs =>
    cases xs with
    | cons y ys => rw [hsp] at h; exact absurd h (by simp)
    | nil =>
      rw [hsp] at h
      simp only at h
      simp [process_name, hsp, h]

/-- Claim C10: whenever some comma-separated fragment of the author text
consists solely of a recognised suffix token (for example the input
`"Jr"`), `process_authors` raises `IndexError`: the suffix is popped,
`name_parts` becomes empty, and `name_parts[0]` fails. -/
theorem claim_C10 (minimal : Bool) (s : String)
    (h : ∃ frag ∈ authorFrags s, suffixOnly frag = true) :
    process_authors minimal s = .error .indexError := by
  obtain ⟨frag, hmem, hsfx⟩ := h
  unfold process_authors
  rw [mapOpt_eq_none (process_name minimal) _ frag hmem (process_name_none minimal frag hsfx)]

theorem claim_C10_witness :
    ("Jr" ∈ authorFrags "Jr" ∧ suffixOnly "Jr" = true) ∧
      process_authors false "Jr" = .error .indexError :=
  ⟨⟨by decide, by decide⟩, claim_C10 false "Jr" ⟨"Jr", by decide, by decide⟩⟩

/-! ## C1: well-formedness of mention spans -/

theorem take_takeWhile (p : Char → Bool) :
    ∀ l : List Char, l.take (l.takeWhile p).length = l.takeWhile p := by
  intro l
  induction l with
  | nil => rfl
  | cons c cs ih =>
    by_cases hp : p c = true
    · simp [List.takeWhile_cons, hp, ih]
    · simp [List.takeWhile_cons, hp]

theorem all_takeWhile (p : Char → Bool) (l : List Char) :
    (l.takeWhile p).all p = true := by
  induction l with
  | nil => rfl
  | cons c cs ih =>
    by_cases hp : p c = true
    · simp [List.takeWhile_cons, hp, ih]
    · simp [List.takeWhile_cons, hp]

theorem bidTok_spec (cs tok : List Char) (h : bidTok cs = some tok) :
    cs.take tok.length = tok ∧ isBidToken (String.mk tok) = true ∧ 1 ≤ tok.length := by
  unfold bidTok at h
  simp only at h
  split at h
  · next rest =>
    by_cases hne : (List.takeWhile Char.isDigit rest).isEmpty = true
    · rw [if_pos hne] at h
      exact absurd h (by simp)
    · rw [if_neg hne] at h
      simp only [Option.some.injEq] at h
      subst h
      refine ⟨?_, ?_, by simp⟩
      · simp only [List.length_cons, List.take_succ_cons]
        rw [take_takeWhile]
      · simp [isBidToken, all_takeWhile, hne]
  · exact absurd h (by simp)

theorem scanAux_mem_spec :
    ∀ (cs : List Char) (pos k : Nat) (sp : Span), sp ∈ scanBIDsAux cs pos k →
      pos ≤ sp.start ∧ sp.stop = sp.start + sp.token.data.length ∧
        isBidToken sp.token = true ∧
        (cs.drop (sp.start - pos)).take sp.token.data.length = sp.token.data := by
  intro cs
  induction cs with
  | nil => intro pos k sp hsp; exact absurd hsp (by simp [scanBIDsAux])
  | cons c cs ih =>
    intro pos k sp hsp
    cases k with
    | succ k' =>
      simp only [scanBIDsAux] at hsp
      obtain ⟨h1, h2, h3, h4⟩ := ih (pos + 1) k' sp hsp
      refine ⟨by omega, h2, h3, ?_⟩
      have harith : sp.start - pos = (sp.start - (pos + 1)) + 1 := by omega
      rw [harith, List.drop_succ_cons]
      exact h4
    | zero =>
      rw [scanBIDsAux] at hsp
      cases hb : bidTok (c :: cs) with
      | none =>
        rw [hb] at hsp
        simp only at hsp
        obtain ⟨h1, h2, h3, h4⟩ := ih (pos + 1) 0 sp hsp
        refine ⟨by omega, h2, h3, ?_⟩
        have harith : sp.start - pos = (sp.start - (pos + 1)) + 1 := by omega
        rw [harith, List.drop_succ_cons]
        exact h4
      | some tok =>
        rw [hb] at hsp
        simp only [List.mem_cons] at hsp
        obtain ⟨htake, hbid, hlen⟩ := bidTok_spec (c :: cs) tok hb
        rcases hsp with h | h
        · subst h
          refine ⟨Nat.le_refl _, rfl, hbid, ?_⟩
          simp only [Nat.sub_self, List.drop_zero]
          exact htake
        · obtain ⟨h1, h2, h3, h4⟩ := ih (pos + 1) (tok.length - 1) sp h
          refine ⟨by omega, h2, h3, ?_⟩
          have harith : sp.start - pos = (sp.start - (pos + 1)) + 1 := by omega
          rw [harith, List.drop_succ_cons]
          exact h4

theorem scanAux_lb :
    ∀ (cs : List Char) (pos k : Nat) (sp : Span), sp ∈ scanBIDsAux cs pos k →
      pos + k ≤ sp.start := by
  intro cs
  induction cs with
  | nil => intro pos k sp hsp; exact absurd hsp (by simp [scanBIDsAux])
  | cons c cs ih =>
    intro pos k sp hsp
    cases k with
    | succ k' =>
      simp only [scanBIDsAux] at hsp
      have := ih (pos + 1) k' sp hsp
      omega
    | zero =>
      rw [scanBIDsAux] at hsp
      cases hb : bidTok (c :: cs) with
      | none =>
        rw [hb] at hsp
        simp only at hsp
        have := ih (pos + 1) 0 sp hsp
        omega
      | some tok =>
        rw [hb] at hsp
        simp only [List.mem_cons] at hsp
        rcases hsp with h | h
        · subst h; simp
        · have := ih (pos + 1) (tok.length - 1) sp h
          omega

theorem scanAux_sorted :
    ∀ (cs : List Char) (pos k : Nat), spansSorted (scanBIDsAux cs pos k) = true := by
  intro cs
  induction cs with
  | nil => intro pos k; rfl
  | cons c cs ih =>
    intro pos k
    cases k with
    | succ k' => simp only [scanBIDsAux]; exact ih (pos + 1) k'
    | zero =>
      rw [scanBIDsAux]
      cases hb : bidTok (c :: cs) with
      | none => exact ih (pos + 1) 0
      | some tok =>
        obtain ⟨htake, hbid, hlen⟩ := bidTok_spec (c :: cs) tok hb
        simp only [spansSorted, Bool.and_eq_true, List.all_eq_true]
        refine ⟨?_, ih (pos + 1) (tok.length - 1)⟩
        intro b hb2
        have hlb := scanAux_lb cs (pos + 1) (tok.length - 1) b hb2
        have : pos + tok.length ≤ b.start := by omega
        simp only [Bool.and_eq_true, decide_eq_true_eq]
        omega

theorem spansWF_scan (s : String) (sec : Option String) :
    spansWF ⟨s, scanBIDs s, sec⟩ = true := by
  simp only [spansWF, Bool.and_eq_true, List.all_eq_true]
  constructor
  · intro sp hsp
    obtain ⟨h1, h2, h3, h4⟩ := scanAux_mem_spec s.data 0 0 sp hsp
    simp only [Nat.sub_zero] at h4
    simp only [Bool.and_eq_true, decide_eq_true_eq, h3, and_true]
    simp only [sliceStr, h2, Nat.add_sub_cancel_left, h4]
  · exact scanAux_sorted s.data 0 0

theorem paraCore_spans (para : Node) (r : String × List Span)
    (h : paraCore para = .ok r) : r.2 = scanBIDs r.1 := by
  simp only [paraCore] at h
  split at h
  · simp only [Except.ok.injEq] at h
    subst h
    rfl
  · exact absurd h (by simp)

theorem process_paragraph_wf (para : Node) (sec : String) (tb : TextBlock)
    (h : process_paragraph para sec = .ok tb) : spansWF tb = true := by
  unfold process_paragraph at h
  cases hc : paraCore para with
  | error e => rw [hc] at h; exact absurd h (by simp [Except.map])
  | ok r =>
    rw [hc] at h
    simp only [Except.map, Except.ok.injEq] at h
    have hsp := paraCore_spans para r hc
    subst h
    have : ({ text := r.1, mention_spans := r.2, sectionName := some sec } : TextBlock)
        = { text := r.1, mention_spans := scanBIDs r.1, sectionName := some sec } := by
      rw [hsp]
    rw [this]
    exact spansWF_scan r.1 (some sec)

theorem processAbstract_wf (para : Node) (tb : TextBlock)
    (h : processAbstract para = .ok tb) : spansWF tb = true := by
  unfold processAbstract at h
  cases hc : paraCore para with
  | error e => rw [hc] at h; exact absurd h (by simp [Except.map])
  | ok r =>
    rw [hc] at h
    simp only [Except.map, Except.ok.injEq] at h
    have hsp := paraCore_spans para r hc
    subst h
    have : ({ text := r.1, mention_spans := r.2, sectionName := none } : TextBlock)
        = { text := r.1, mention_spans := scanBIDs r.1, sectionName := none } := by
      rw [hsp]
    rw [this]
    exact spansWF_scan r.1 none

theorem processPs_src (st : String) :
    ∀ (l : List Node) (res : List TextBlock), processPs st l = .ok res →
      ∀ tb ∈ res, ∃ p, process_paragraph p st = .ok tb := by
  intro l
  induction l with
  | nil =>
    intro res h tb htb
    simp only [processPs, Except.ok.injEq] at h
    subst h
    exact absurd htb (by simp)
  | cons p rest ih =>
    intro res h tb htb
    simp only [processPs] at h
    cases hp : process_paragraph p st with
    | error e => rw [hp] at h; exact absurd h (by simp [Bind.bind, Except.bind])
    | ok tb0 =>
      rw [hp] at h
      cases hr : processPs st rest with
      | error e =>
        rw [hr] at h
        exact absurd h (by simp [Bind.bind, Except.bind])
      | ok rs =>
        rw [hr] at h
        simp only [Bind.bind, Except.bind, pure, Except.pure, Except.ok.injEq] at h
        subst h
        rcases List.mem_cons.mp htb with h1 | h1
        · exact ⟨p, by rw [h1]; exact hp⟩
        · exact ih rs hr tb h1

theorem processChildren_src :
    ∀ (l : List Node) (st : String) (res : List TextBlock × String),
      processChildren st l = .ok res →
      ∀ tb ∈ res.1, ∃ p s, process_paragraph p s = .ok tb := by
  intro l
  induction l with
  | nil =>
    intro st res h tb htb
    simp only [processChildren, Except.ok.injEq] at h
    subst h
    exact absurd htb (by simp)
  | cons el rest ih =>
    intro st res h tb htb
    cases el with
    | text s0 =>
      simp only [processChildren] at h
      exact ih st res h tb htb
    | elem n a ch =>
      simp only [processChildren] at h
      by_cases hn1 : n = "head"
      · rw [if_pos hn1] at h
        exact ih _ res h tb htb
      · rw [if_neg hn1] at h
        by_cases hn2 : n = "p"
        · rw [if_pos hn2] at h
          cases hp : process_paragraph (Node.elem n a ch) st with
          | error e => rw [hp] at h; exact absurd h (by simp [Bind.bind, Except.bind])
          | ok tb0 =>
            rw [hp] at h
            cases hr : processChildren st rest with
            | error e => rw [hr] at h; exact absurd h (by simp [Bind.bind, Except.bind])
            | ok r2 =>
              rw [hr] at h
              simp only [Bind.bind, Except.bind, pure, Except.pure, Except.ok.injEq] at h
              subst h
              simp only [List.mem_cons] at htb
              rcases htb with h1 | h1
              · exact ⟨Node.elem n a ch, st, by rw [h1]; exact hp⟩
              · exact ih st r2 hr tb h1
        · rw [if_neg hn2] at h
          by_cases hn3 : n = "div1"
          · rw [if_pos hn3] at h
            cases hh : findFirstN "head" (Node.elem n a ch) with
            | none => rw [hh] at h; exact absurd h (by simp)
            | some hd =>
              rw [hh] at h
              simp only at h
              cases hps : processPs (getText hd) (findAllN "p" (Node.elem n a ch)) with
              | error e => rw [hps] at h; exact absurd h (by simp [Bind.bind, Except.bind])
              | ok tbs =>
                rw [hps] at h
                cases hr : processChildren (getText hd) rest with
                | error e => rw [hr] at h; exact absurd h (by simp [Bind.bind, Except.bind])
                | ok r2 =>
                  rw [hr] at h
                  simp only [Bind.bind, Except.bind, pure, Except.pure, Except.ok.injEq] at h
                  subst h
                  simp only [List.mem_append] at htb
                  rcases htb with h1 | h1
                  · obtain ⟨p, hpp⟩ := processPs_src (getText hd) _ tbs hps tb h1
                    exact ⟨p, getText hd, hpp⟩
                  · exact ih _ r2 hr tb h1
          · rw [if_neg hn3] at h
            exact ih st res h tb htb

theorem processDivs_src :
    ∀ (divs : List Node) (st : String) (res : List TextBlock × String),
      processDivs st divs = .ok res →
      ∀ tb ∈ res.1, ∃ p s, process_paragraph p s = .ok tb := by
  intro divs
  induction divs with
  | nil =>
    intro st res h tb htb
    simp only [processDivs, Except.ok.injEq] at h
    subst h
    exact absurd htb (by simp)
  | cons d rest ih =>
    intro st res h tb htb
    simp only [processDivs] at h
    cases hc : processChildren st (childrenOf d) with
    | error e => rw [hc] at h; exact absurd h (by simp [Bind.bind, Except.bind])
    | ok r1 =>
      rw [hc] at h
      simp only [Bind.bind, Except.bind] at h
      cases hr : processDivs r1.2 rest with
      | error e => rw [hr] at h; exact absurd h (by simp [Bind.bind, Except.bind])
      | ok r2 =>
        rw [hr] at h
        simp only [Bind.bind, Except.bind, pure, Except.pure, Except.ok.injEq] at h
        subst h
        simp only [List.mem_append] at htb
        rcases htb with h1 | h1
        · exact processChildren_src (childrenOf d) st r1 hc tb h1
        · exact ih r1.2 r2 hr tb h1

theorem processBody_src (t : Node) (body : List TextBlock)
    (h : processBody t = .ok body) :
    ∀ tb ∈ body, ∃ p s, process_paragraph p s = .ok tb := by
  unfold processBody at h
  cases hd : processDivs "" (topSelf "div0" t) with
  | error e => rw [hd] at h; exact absurd h (by simp [Except.map])
  | ok r =>
    rw [hd] at h
    simp only [Except.map, Except.ok.injEq] at h
    subst h
    exact fun tb htb => processDivs_src (topSelf "div0" t) "" r hd tb htb

theorem abstractStage_wf (ps : List Node) (t0 : String) (a0 : List AuthorEntry) (y0 : String)
    (rr : Option TextBlock × DocMetadata) (h : abstractStage ps t0 a0 y0 = .ok rr) :
    ∀ tb, rr.1 = some tb → spansWF tb = true := by
  intro tb htb
  cases ps with
  | nil =>
    simp only [abstractStage, Except.ok.injEq] at h
    subst h
    exact absurd htb (by simp)
  | cons p0 rest =>
    simp only [abstractStage] at h
    cases hab : absBlockOf (p0 :: rest) with
    | error e => rw [hab] at h; exact absurd h (by simp [Bind.bind, Except.bind])
    | ok absB =>
      rw [hab] at h
      have habs : spansWF absB = true := by
        simp only [absBlockOf] at hab
        split at hab
        · simp only [Except.ok.injEq] at hab
          subst hab
          simp [spansWF, spansSorted]
        · exact processAbstract_wf _ absB hab
      cases hau : authorsStep (yearStep (poolAfterAbs (p0 :: rest)) y0).1 a0 with
      | error e => rw [hau] at h; exact absurd h (by simp [Bind.bind, Except.bind])
      | ok a1 =>
        rw [hau] at h
        simp only [Bind.bind, Except.bind, pure, Except.pure, Except.ok.injEq] at h
        subst h
        simp only [Option.some.injEq] at htb
        subst htb
        exact habs

/-- Claim C1: in every extracted record, each `TextBlock` of the body and
the abstract satisfies the span invariant: every `[start, end, token]` in
`mention_spans` slices `token` out of `text`, `token` matches `BID\d+`,
and the spans are ascending in `start` and pairwise non-overlapping — the
single left-to-right `re.finditer` scan guarantees all three. -/
theorem claim_C1 (id : String) (t : Node) (r : DocumentRecord)
    (h : extractRecord id t = .ok r) :
    (∀ tb ∈ r.body_text, spansWF tb = true) ∧
    (∀ ob ∈ r.abstract, ∀ tb, ob = some tb → spansWF tb = true) := by
  simp only [extractRecord] at h
  cases hb : processBib (afterNoise t) with
  | error e => rw [hb] at h; exact absurd h (by simp [Bind.bind, Except.bind])
  | ok bib =>
    rw [hb] at h
    simp only [Bind.bind, Except.bind] at h
    cases hbody : processBody (bodyTree t) with
    | error e => rw [hbody] at h; exact absurd h (by simp)
    | ok body =>
      rw [hbody] at h
      simp only at h
      cases hau : authorsOf (headTree t) with
      | error e => rw [hau] at h; exact absurd h (by simp)
      | ok authors0 =>
        rw [hau] at h
        simp only at h
        cases har : abstractStage (abstractPool t) (titleOf (headTree t)) authors0
            (yearOf (headTree t)) with
        | error e => rw [har] at h; exact absurd h (by simp)
        | ok rr =>
          rw [har] at h
          simp only [pure, Except.pure, Except.ok.injEq] at h
          subst h
          constructor
          · intro tb htb
            obtain ⟨p, s, hpp⟩ := processBody_src (bodyTree t) body hbody tb htb
            exact process_paragraph_wf p s tb hpp
          · intro ob hob tb htob
            simp only [List.mem_singleton] at hob
            subst hob
            exact abstractStage_wf (abstractPool t) (titleOf (headTree t)) authors0
              (yearOf (headTree t)) rr har tb htob

theorem claim_C1_witness :
    ∃ r, extractRecord "x" exTreeMain = .ok r ∧
      ((∀ tb ∈ r.body_text, spansWF tb = true) ∧
        (∀ ob ∈ r.abstract, ∀ tb, ob = some tb → spansWF tb = true)) := by
  cases hx : extractRecord "x" exTreeMain with
  | error e =>
    have hk : (extractRecord "x" exTreeMain).isOk = true := by decide
    rw [hx] at hk
    exact absurd hk (by simp [Except.isOk, Except.toBool])
  | ok r => exact ⟨r, rfl, claim_C1 "x" exTreeMain r hx⟩

/-! ## C6: shape of the `abstract` field -/

theorem abstractStage_shape (ps : List Node) (t0 : String) (a0 : List AuthorEntry)
    (y0 : String) (rr : Option TextBlock × DocMetadata)
    (h : abstractStage ps t0 a0 y0 = .ok rr) :
    (ps = [] → rr.1 = none) ∧ (ps ≠ [] → ∃ tb, rr.1 = some tb) := by
  cases ps with
  | nil =>
    simp only [abstractStage, Except.ok.injEq] at h
    subst h
    exact ⟨fun _ => rfl, fun hne => absurd rfl hne⟩
  | cons p0 rest =>
    simp only [abstractStage] at h
    cases hab : absBlockOf (p0 :: rest) with
    | error e => rw [hab] at h; exact absurd h (by simp [Bind.bind, Except.bind])
    | ok absB =>
      rw [hab] at h
      cases hau : authorsStep (yearStep (poolAfterAbs (p0 :: rest)) y0).1 a0 with
      | error e => rw [hau] at h; exact absurd h (by simp [Bind.bind, Except.bind])
      | ok a1 =>
        rw [hau] at h
        simp only [Bind.bind, Except.bind, pure, Except.pure, Except.ok.injEq] at h
        subst h
        exact ⟨fun hc => absurd hc (by simp), fun _ => ⟨absB, rfl⟩⟩

/-- Claim C6 is false on the code for trees with no paragraph node: the
Python variable `abstract` keeps its initial value `[]`, and the record's
`abstract` field becomes `[[]]` — a single-element list whose element is
an empty list, not a `TextBlock` of shape `{text, mention_spans,
section}` (modelled as `[none]`). -/
theorem claim_C6_counterexample :
    (extractRecord "x" emptyTree).map (fun r => r.abstract) = .ok [none] := rfl

/-- Claim C6 amended: the `abstract` field of every produced record is a
single-element sequence; its one element is a `TextBlock` whenever at
least one paragraph node remains in the tree at the abstract stage
(outside the consumed `div0`, bibliography and float subtrees), but for a
tree with no such paragraph the single element is the empty list that
`abstract` was initialised to, not a `TextBlock`. -/
theorem claim_C6_amended (id : String) (t : Node) (r : DocumentRecord)
    (h : extractRecord id t = .ok r) :
    r.abstract.length = 1 ∧ (abstractPool t = [] → r.abstract = [none]) ∧
      (abstractPool t ≠ [] → ∃ tb, r.abstract = [some tb]) := by
  simp only [extractRecord] at h
  cases hb : processBib (afterNoise t) with
  | error e => rw [hb] at h; exact absurd h (by simp [Bind.bind, Except.bind])
  | ok bib =>
    rw [hb] at h
    simp only [Bind.bind, Except.bind] at h
    cases hbody : processBody (bodyTree t) with
    | error e => rw [hbody] at h; exact absurd h (by simp)
    | ok body =>
      rw [hbody] at h
      simp only at h
      cases hau : authorsOf (headTree t) with
      | error e => rw [hau] at h; exact absurd h (by simp)
      | ok authors0 =>
        rw [hau] at h
        simp only at h
        cases har : abstractStage (abstractPool t) (titleOf (headTree t)) authors0
            (yearOf (headTree t)) with
        | error e => rw [har] at h; exact absurd h (by simp)
        | ok rr =>
          rw [har] at h
          simp only [pure, Except.pure, Except.ok.injEq] at h
          subst h
          obtain ⟨h1, h2⟩ := abstractStage_shape (abstractPool t) (titleOf (headTree t))
            authors0 (yearOf (headTree t)) rr har
          refine ⟨rfl, fun hc => ?_, fun hc => ?_⟩
          · rw [h1 hc]
          · obtain ⟨tb, htb⟩ := h2 hc
            exact ⟨tb, by rw [htb]⟩

theorem claim_C6_witness :
    ∃ r, extractRecord "x" exTreeMain = .ok r ∧
      (r.abstract.length = 1 ∧ ∃ tb, r.abstract = [some tb]) := by
  cases hx : extractRecord "x" exTreeMain with
  | error e =>
    have hk : (extractRecord "x" exTreeMain).isOk = true := by decide
    rw [hx] at hk
    exact absurd hk (by simp [Except.isOk, Except.toBool])
  | ok r =>
    have h := claim_C6_amended "x" exTreeMain r hx
    exact ⟨r, rfl, h.1, h.2.2 (fun hc => absurd (congrArg List.length hc) (by decide))⟩

/-! ## C2: safety of the whole extraction

The development below shows which tree shapes make the extraction raise
and that nothing else does: the cit/ref citation access, the `div1` head
access, the bibliography parent access and the author name parsing are
the only raising sites. -/

theorem isNamed_unique (n1 n2 : String) (e : Node)
    (h1 : isNamed n1 e = true) (h2 : isNamed n2 e = true) : n1 = n2 := by
  cases e with
  | text s => simp [isNamed] at h1
  | elem n a ch =>
    simp only [isNamed, decide_eq_true_eq] at h1 h2
    rw [← h1, ← h2]

theorem elem_mem_elemsSelf (n : String) (a : List (String × String)) (ch : List Node) :
    Node.elem n a ch ∈ elemsSelf (Node.elem n a ch) := by
  simp [elemsSelf]

theorem mem_elemsFor_of_mem (l : List Node) (x y : Node)
    (hx : x ∈ l) (hy : y ∈ elemsSelf x) : y ∈ elemsFor l := by
  induction l with
  | nil => exact absurd hx (by simp)
  | cons c cs ih =>
    simp only [elemsFor, List.mem_append]
    rcases List.mem_cons.mp hx with h | h
    · exact Or.inl (h ▸ hy)
    · exact Or.inr (ih h)

mutual

theorem elemsSelf_trans (t : Node) :
    ∀ x ∈ elemsSelf t, ∀ y ∈ elemsSelf x, y ∈ elemsSelf t := by
  intro x hx y hy
  cases t with
  | text s => exact absurd hx (by simp [elemsSelf])
  | elem n a ch =>
    simp only [elemsSelf, List.mem_cons] at hx
    rcases hx with h | h
    · subst h
      exact hy
    · simp only [elemsSelf, List.mem_cons]
      exact Or.inr (elemsFor_trans ch x h y hy)

theorem elemsFor_trans (l : List Node) :
    ∀ x ∈ elemsFor l, ∀ y ∈ elemsSelf x, y ∈ elemsFor l := by
  intro x hx y hy
  cases l with
  | nil => exact absurd hx (by simp [elemsFor])
  | cons c cs =>
    simp only [elemsFor, List.mem_append] at hx ⊢
    rcases hx with h | h
    · exact Or.inl (elemsSelf_trans c x h y hy)
    · exact Or.inr (elemsFor_trans cs x h y hy)

end

mutual

theorem topSelf_mem_elemsSelf (nm : String) (t : Node) :
    ∀ d ∈ topSelf nm t, d ∈ elemsSelf t := by
  intro d hd
  cases t with
  | text s => exact absurd hd (by simp [topSelf])
  | elem n a ch =>
    simp only [topSelf] at hd
    by_cases hn : n = nm
    · rw [if_pos (by simp [hn])] at hd
      simp only [List.mem_singleton] at hd
      subst hd
      exact elem_mem_elemsSelf n a ch
    · rw [if_neg (by simp [hn])] at hd
      simp only [elemsSelf, List.mem_cons]
      exact Or.inr (topFor_mem_elemsFor nm ch d hd)

theorem topFor_mem_elemsFor (nm : String) (l : List Node) :
    ∀ d ∈ topFor nm l, d ∈ elemsFor l := by
  intro d hd
  cases l with
  | nil => exact absurd hd (by simp [topFor])
  | cons c cs =>
    simp only [topFor, List.mem_append] at hd
    simp only [elemsFor, List.mem_append]
    rcases hd with h | h
    · exact Or.inl (topSelf_mem_elemsSelf nm c d h)
    · exact Or.inr (topFor_mem_elemsFor nm cs d h)

end

mutual

theorem findAllSelf_eq_filter (nm : String) (t : Node) :
    findAllSelf nm t = (elemsSelf t).filter (isNamed nm) := by
  cases t with
  | text s => rfl
  | elem n a ch =>
    simp only [findAllSelf, elemsSelf, List.filter_cons]
    by_cases hn : n = nm
    · have : isNamed nm (Node.elem n a ch) = true := by simp [isNamed, hn]
      rw [if_pos (by simp [hn]), this, findAllFor_eq_filter nm ch]
      simp
    · have : ¬isNamed nm (Node.elem n a ch) = true := by simp [isNamed, hn]
      rw [if_neg (by simp [hn]), if_neg this, findAllFor_eq_filter nm ch]
      simp

theorem findAllFor_eq_filter (nm : String) (l : List Node) :
    findAllFor nm l = (elemsFor l).filter (isNamed nm) := by
  cases l with
  | nil => rfl
  | cons c cs =>
    simp only [findAllFor, elemsFor, List.filter_append]
    rw [findAllSelf_eq_filter nm c, findAllFor_eq_filter nm cs]

end

theorem findAllN_eq_filter (nm : String) (t : Node) :
    findAllN nm t = (elemsIn t).filter (isNamed nm) := by
  cases t with
  | text s => rfl
  | elem n a ch =>
    simp only [findAllN, elemsIn]
    exact findAllFor_eq_filter nm ch

theorem citsOkL_of_citsOkT (n : String) (a : List (String × String)) (ch : List Node)
    (h : citsOkT (Node.elem n a ch) = true) : citsOkL ch = true := by
  simp only [citsOkT, findAllSelf, List.all_append, Bool.and_eq_true] at h
  exact h.2

theorem citsOkT_of_mem (l : List Node) (c : Node) (hc : c ∈ l)
    (h : citsOkL l = true) : citsOkT c = true := by
  induction l with
  | nil => exact absurd hc (by simp)
  | cons d ds ih =>
    simp only [citsOkL, findAllFor, List.all_append, Bool.and_eq_true] at h
    rcases List.mem_cons.mp hc with h1 | h1
    · subst h1
      exact h.1
    · exact ih h1 (by simp only [citsOkL]; exact h.2)

theorem citsOkT_hereditary (t : Node) (x : Node) (hx : x ∈ elemsSelf t)
    (h : citsOkT t = true) : citsOkT x = true := by
  simp only [citsOkT, findAllSelf_eq_filter, List.all_eq_true] at h ⊢
  intro y hy
  have hyx : y ∈ elemsSelf x := (List.mem_filter.mp hy).1
  have hyn : isNamed "cit" y = true := (List.mem_filter.mp hy).2
  exact h y (List.mem_filter.mpr ⟨elemsSelf_trans t x hx y hyx, hyn⟩)

theorem goodCit_of_self (x : Node) (hn : isNamed "cit" x = true)
    (h : citsOkT x = true) : goodCit x = true := by
  cases x with
  | text s => simp [isNamed] at hn
  | elem n a ch =>
    simp only [citsOkT, findAllSelf, List.all_append, Bool.and_eq_true] at h
    have := h.1
    simp only [isNamed, decide_eq_true_eq] at hn
    rw [if_pos hn] at this
    simpa using this

mutual

theorem replaceSelf_id (p : Node → Bool) (rep : Node → String) (t : Node)
    (h : ∀ e ∈ elemsSelf t, p e = false) : replaceSelf p rep t = t := by
  cases t with
  | text s => rfl
  | elem n a ch =>
    have hp : p (Node.elem n a ch) = false := h _ (elem_mem_elemsSelf n a ch)
    simp only [replaceSelf, hp, Bool.false_eq_true, if_false]
    rw [replaceFor_id p rep ch]
    intro e he
    exact h e (by simp only [elemsSelf, List.mem_cons]; exact Or.inr he)

theorem replaceFor_id (p : Node → Bool) (rep : Node → String) (l : List Node)
    (h : ∀ e ∈ elemsFor l, p e = false) : replaceFor p rep l = l := by
  cases l with
  | nil => rfl
  | cons c cs =>
    simp only [replaceFor]
    rw [replaceSelf_id p rep c
        (fun e he => h e (by simp only [elemsFor, List.mem_append]; exact Or.inl he)),
      replaceFor_id p rep cs
        (fun e he => h e (by simp only [elemsFor, List.mem_append]; exact Or.inr he))]

end

mutual

theorem removeSelf_id (p : Node → Bool) (t : Node)
    (h : ∀ e ∈ elemsSelf t, p e = false) : removeSelf p t = some t := by
  cases t with
  | text s => rfl
  | elem n a ch =>
    have hp : p (Node.elem n a ch) = false := h _ (elem_mem_elemsSelf n a ch)
    simp only [removeSelf, hp, Bool.false_eq_true, if_false, Option.some.injEq]
    rw [removeFor_id p ch]
    intro e he
    exact h e (by simp only [elemsSelf, List.mem_cons]; exact Or.inr he)

theorem removeFor_id (p : Node → Bool) (l : List Node)
    (h : ∀ e ∈ elemsFor l, p e = false) : removeFor p l = l := by
  cases l with
  | nil => rfl
  | cons c cs =>
    simp only [removeFor]
    rw [removeSelf_id p c
        (fun e he => h e (by simp only [elemsFor, List.mem_append]; exact Or.inl he))]
    rw [removeFor_id p cs
        (fun e he => h e (by simp only [elemsFor, List.mem_append]; exact Or.inr he))]

end

mutual

theorem removeFirstSelf_id (nm : String) (t : Node)
    (h : ∀ e ∈ elemsSelf t, isNamed nm e = false) :
    removeFirstSelf nm t = (some t, false) := by
  cases t with
  | text s => rfl
  | elem n a ch =>
    have hp : isNamed nm (Node.elem n a ch) = false := h _ (elem_mem_elemsSelf n a ch)
    have hn : ¬n = nm := by
      intro hc
      rw [isNamed, hc] at hp
      simp at hp
    simp only [removeFirstSelf, hn, if_false]
    rw [removeFirstFor_id nm ch
      (fun e he => h e (by simp only [elemsSelf, List.mem_cons]; exact Or.inr he))]

theorem removeFirstFor_id (nm : String) (l : List Node)
    (h : ∀ e ∈ elemsFor l, isNamed nm e = false) :
    removeFirstFor nm l = (l, false) := by
  cases l with
  | nil => rfl
  | cons c cs =>
    simp only [removeFirstFor]
    rw [removeFirstSelf_id nm c
      (fun e he => h e (by simp only [elemsFor, List.mem_append]; exact Or.inl he))]
    simp only
    rw [removeFirstFor_id nm cs
      (fun e he => h e (by simp only [elemsFor, List.mem_append]; exact Or.inr he))]

end

theorem goodCit_inner (c : Node) (h : goodCit c = true) :
    ∀ e ∈ elemsIn c, isNamed "ref" e = true ∧ targetBid e = true := by
  simp only [goodCit, Bool.and_eq_true, List.all_eq_true] at h
  intro e he
  have := h.2 e he
  simp only [Bool.and_eq_true] at this
  exact this

theorem goodCit_inner_for (n : String) (a : List (String × String)) (ch : List Node)
    (h : goodCit (Node.elem n a ch) = true) :
    ∀ e ∈ elemsFor ch, isNamed "ref" e = true ∧ targetBid e = true := by
  have := goodCit_inner (Node.elem n a ch) h
  simpa [elemsIn] using this

theorem citsOkL_cons (x : Node) (xs : List Node) :
    citsOkL (x :: xs) = (citsOkT x && citsOkL xs) := by
  simp [citsOkL, citsOkT, findAllFor, List.all_append]

theorem citsOkT_elem (n : String) (a : List (String × String)) (ch : List Node) :
    citsOkT (Node.elem n a ch)
      = ((if n = "cit" then goodCit (Node.elem n a ch) else true) && citsOkL ch) := by
  by_cases hn : n = "cit"
  · simp [citsOkT, citsOkL, findAllSelf, List.all_append, hn]
  · simp [citsOkT, citsOkL, findAllSelf, List.all_append, hn]

mutual

theorem citsOk_replaceSelf (p : Node → Bool) (rep : Node → String)
    (hp : ∀ e, isNamed "ref" e = true → targetBid e = true → p e = false) :
    ∀ t, citsOkT t = true → citsOkT (replaceSelf p rep t) = true := by
  intro t h
  cases t with
  | text s => exact h
  | elem n a ch =>
    by_cases hpt : p (Node.elem n a ch) = true
    · simp [replaceSelf, hpt, citsOkT, findAllSelf]
    · simp only [replaceSelf, hpt, Bool.false_eq_true, if_false]
      rw [citsOkT_elem] at h ⊢
      simp only [Bool.and_eq_true] at h ⊢
      by_cases hn : n = "cit"
      · have hgood : goodCit (Node.elem n a ch) = true := by
          have := h.1
          rwa [if_pos hn] at this
        have hid : replaceFor p rep ch = ch := by
          apply replaceFor_id
          intro e he
          obtain ⟨h1, h2⟩ := goodCit_inner_for n a ch hgood e he
          exact hp e h1 h2
        rw [hid]
        exact ⟨h.1, h.2⟩
      · refine ⟨by rw [if_neg hn], ?_⟩
        exact citsOk_replaceFor p rep hp ch h.2

theorem citsOk_replaceFor (p : Node → Bool) (rep : Node → String)
    (hp : ∀ e, isNamed "ref" e = true → targetBid e = true → p e = false) :
    ∀ l, citsOkL l = true → citsOkL (replaceFor p rep l) = true := by
  intro l h
  cases l with
  | nil => exact h
  | cons c cs =>
    simp only [replaceFor]
    rw [citsOkL_cons] at h ⊢
    simp only [Bool.and_eq_true] at h ⊢
    exact ⟨citsOk_replaceSelf p rep hp c h.1, citsOk_replaceFor p rep hp cs h.2⟩

end

theorem citsOk_replaceInside (p : Node → Bool) (rep : Node → String)
    (hp : ∀ e, isNamed "ref" e = true → targetBid e = true → p e = false)
    (t : Node) (h : citsOkT t = true) : citsOkT (replaceInside p rep t) = true := by
  cases t with
  | text s => exact h
  | elem n a ch =>
    simp only [replaceInside]
    rw [citsOkT_elem] at h ⊢
    simp only [Bool.and_eq_true] at h ⊢
    by_cases hn : n = "cit"
    · have hgood : goodCit (Node.elem n a ch) = true := by
        have := h.1
        rwa [if_pos hn] at this
      have hid : replaceFor p rep ch = ch := by
        apply replaceFor_id
        intro e he
        obtain ⟨h1, h2⟩ := goodCit_inner_for n a ch hgood e he
        exact hp e h1 h2
      rw [hid]
      exact ⟨h.1, h.2⟩
    · exact ⟨by rw [if_neg hn], citsOk_replaceFor p rep hp ch h.2⟩

mutual

theorem citsOk_removeSelf (p : Node → Bool)
    (hp : ∀ e, isNamed "ref" e = true → targetBid e = true → p e = false) :
    ∀ t t', removeSelf p t = some t' → citsOkT t = true → citsOkT t' = true := by
  intro t t' ht h
  cases t with
  | text s =>
    simp only [removeSelf, Option.some.injEq] at ht
    subst ht
    exact h
  | elem n a ch =>
    by_cases hpt : p (Node.elem n a ch) = true
    · simp [removeSelf, hpt] at ht
    · simp only [removeSelf, hpt, Bool.false_eq_true, if_false, Option.some.injEq] at ht
      subst ht
      rw [citsOkT_elem] at h ⊢
      simp only [Bool.and_eq_true] at h ⊢
      by_cases hn : n = "cit"
      · have hgood : goodCit (Node.elem n a ch) = true := by
          have := h.1
          rwa [if_pos hn] at this
        have hid : removeFor p ch = ch := by
          apply removeFor_id
          intro e he
          obtain ⟨h1, h2⟩ := goodCit_inner_for n a ch hgood e he
          exact hp e h1 h2
        rw [hid]
        exact ⟨h.1, h.2⟩
      · exact ⟨by rw [if_neg hn], citsOk_removeFor p hp ch h.2⟩

theorem citsOk_removeFor (p : Node → Bool)
    (hp : ∀ e, isNamed "ref" e = true → targetBid e = true → p e = false) :
    ∀ l, citsOkL l = true → citsOkL (removeFor p l) = true := by
  intro l h
  cases l with
  | nil => exact h
  | cons c cs =>
    rw [citsOkL_cons] at h
    simp only [Bool.and_eq_true] at h
    simp only [removeFor]
    cases hc : removeSelf p c with
    | none => exact citsOk_removeFor p hp cs h.2
    | some c' =>
      rw [citsOkL_cons]
      simp only [Bool.and_eq_true]
      exact ⟨citsOk_removeSelf p hp c c' hc h.1, citsOk_removeFor p hp cs h.2⟩

end

theorem citsOk_removeInside (p : Node → Bool)
    (hp : ∀ e, isNamed "ref" e = true → targetBid e = true → p e = false)
    (t : Node) (h : citsOkT t = true) : citsOkT (removeInside p t) = true := by
  cases t with
  | text s => exact h
  | elem n a ch =>
    simp only [removeInside]
    rw [citsOkT_elem] at h ⊢
    simp only [Bool.and_eq_true] at h ⊢
    by_cases hn : n = "cit"
    · have hgood : goodCit (Node.elem n a ch) = true := by
        have := h.1
        rwa [if_pos hn] at this
      have hid : removeFor p ch = ch := by
        apply removeFor_id
        intro e he
        obtain ⟨h1, h2⟩ := goodCit_inner_for n a ch hgood e he
        exact hp e h1 h2
      rw [hid]
      exact ⟨h.1, h.2⟩
    · exact ⟨by rw [if_neg hn], citsOk_removeFor p hp ch h.2⟩

mutual

theorem citsOk_removeFirstSelf (nm : String)
    (hnm : ∀ e, isNamed "ref" e = true → isNamed nm e = false) :
    ∀ t t' f, removeFirstSelf nm t = (some t', f) → citsOkT t = true → citsOkT t' = true := by
  intro t t' f ht h
  cases t with
  | text s =>
    simp only [removeFirstSelf, Prod.mk.injEq, Option.some.injEq] at ht
    rw [← ht.1]
    exact h
  | elem n a ch =>
    by_cases hn0 : n = nm
    · simp [removeFirstSelf, hn0] at ht
    · simp only [removeFirstSelf, hn0, if_false] at ht
      cases hrf : removeFirstFor nm ch with
      | mk ch' f2 =>
        rw [hrf] at ht
        simp only [Prod.mk.injEq, Option.some.injEq] at ht
        rw [← ht.1]
        rw [citsOkT_elem] at h ⊢
        simp only [Bool.and_eq_true] at h ⊢
        by_cases hn : n = "cit"
        · have hgood : goodCit (Node.elem n a ch) = true := by
            have := h.1
            rwa [if_pos hn] at this
          have hid : removeFirstFor nm ch = (ch, false) := by
            apply removeFirstFor_id
            intro e he
            obtain ⟨h1, _⟩ := goodCit_inner_for n a ch hgood e he
            exact hnm e h1
          rw [hid] at hrf
          simp only [Prod.mk.injEq] at hrf
          rw [← hrf.1]
          exact ⟨h.1, h.2⟩
        · refine ⟨by rw [if_neg hn], ?_⟩
          have := citsOk_removeFirstFor nm hnm ch h.2
          rw [hrf] at this
          exact this

theorem citsOk_removeFirstFor (nm : String)
    (hnm : ∀ e, isNamed "ref" e = true → isNamed nm e = false) :
    ∀ l, citsOkL l = true → citsOkL (removeFirstFor nm l).1 = true := by
  intro l h
  cases l with
  | nil => exact h
  | cons c cs =>
    rw [citsOkL_cons] at h
    simp only [Bool.and_eq_true] at h
    simp only [removeFirstFor]
    cases hc : removeFirstSelf nm c with
    | mk oc f =>
      cases oc with
      | none => exact h.2
      | some c' =>
        cases f with
        | true =>
          simp only
          rw [citsOkL_cons]
          simp only [Bool.and_eq_true]
          exact ⟨citsOk_removeFirstSelf nm hnm c c' true hc h.1, h.2⟩
        | false =>
          simp only
          cases hrest : removeFirstFor nm cs with
          | mk cs' f2 =>
            simp only
            rw [citsOkL_cons]
            simp only [Bool.and_eq_true]
            constructor
            · exact h.1
            · have := citsOk_removeFirstFor nm hnm cs h.2
              rw [hrest] at this
              exact this

end

theorem citsOk_removeFirstIn (nm : String)
    (hnm : ∀ e, isNamed "ref" e = true → isNamed nm e = false)
    (t : Node) (h : citsOkT t = true) : citsOkT (removeFirstIn nm t) = true := by
  cases t with
  | text s => exact h
  | elem n a ch =>
    simp only [removeFirstIn]
    rw [citsOkT_elem] at h ⊢
    simp only [Bool.and_eq_true] at h ⊢
    by_cases hn : n = "cit"
    · have hgood : goodCit (Node.elem n a ch) = true := by
        have := h.1
        rwa [if_pos hn] at this
      have hid : removeFirstFor nm ch = (ch, false) := by
        apply removeFirstFor_id
        intro e he
        obtain ⟨h1, _⟩ := goodCit_inner_for n a ch hgood e he
        exact hnm e h1
      rw [hid]
      exact ⟨h.1, h.2⟩
    · exact ⟨by rw [if_neg hn], citsOk_removeFirstFor nm hnm ch h.2⟩

theorem named_ne (n2 : String) (hne : ¬"ref" = n2) :
    ∀ e : Node, isNamed "ref" e = true → isNamed n2 e = false := by
  intro e h1
  cases hq : isNamed n2 e with
  | false => rfl
  | true => exact absurd (isNamed_unique "ref" n2 e h1 hq) hne

theorem refIsBad_of_targetBid (e : Node) (h2 : targetBid e = true) :
    refIsBad e = false := by
  simp only [targetBid] at h2
  cases hg : getAttrN e "target" with
  | none => rw [hg] at h2; simp at h2
  | some tg =>
    rw [hg] at h2
    simp only at h2
    simp [refIsBad, hg, h2]

theorem goodCit_citRefTarget (c : Node) (h : goodCit c = true) :
    (citRefTarget c).isSome = true := by
  simp only [goodCit, Bool.and_eq_true, List.all_eq_true] at h
  obtain ⟨hne, hall⟩ := h
  simp only [citRefTarget, findFirstN, findAllN_eq_filter]
  have hfe : (elemsIn c).filter (isNamed "ref") = elemsIn c := by
    rw [List.filter_eq_self]
    intro e he
    have := hall e he
    simp only [Bool.and_eq_true] at this
    exact this.1
  rw [hfe]
  cases hl : elemsIn c with
  | nil => rw [hl] at hne; simp at hne
  | cons e0 es =>
    simp only [List.head?_cons]
    have he0 : e0 ∈ elemsIn c := by rw [hl]; simp
    have := hall e0 he0
    simp only [Bool.and_eq_true] at this
    have htb := this.2
    simp only [targetBid] at htb
    cases hg : getAttrN e0 "target" with
    | none => rw [hg] at htb; exact absurd htb (by simp)
    | some tg => simp [hg]

theorem paraCore_ok (para : Node) (h : citsOkT para = true) :
    (paraCore para).isOk = true := by
  have hp1 : citsOkT (replaceInside (isNamed "formula") (fun _ => "FORMULA") para) = true :=
    citsOk_replaceInside _ _ (fun e h1 _ => named_ne "formula" (by decide) e h1) para h
  have hp2 : citsOkT (replaceInside (isNamed "figure") (fun _ => "FIGURE")
      (replaceInside (isNamed "formula") (fun _ => "FORMULA") para)) = true :=
    citsOk_replaceInside _ _ (fun e h1 _ => named_ne "figure" (by decide) e h1) _ hp1
  have hp3 : citsOkT (replaceInside (isNamed "table") (fun _ => "TABLE")
      (replaceInside (isNamed "figure") (fun _ => "FIGURE")
        (replaceInside (isNamed "formula") (fun _ => "FORMULA") para))) = true :=
    citsOk_replaceInside _ _ (fun e h1 _ => named_ne "table" (by decide) e h1) _ hp2
  have hp4 : citsOkT (replaceInside refIsBad (fun _ => "REF")
      (replaceInside (isNamed "table") (fun _ => "TABLE")
        (replaceInside (isNamed "figure") (fun _ => "FIGURE")
          (replaceInside (isNamed "formula") (fun _ => "FORMULA") para)))) = true :=
    citsOk_replaceInside _ _ (fun e _ h2 => refIsBad_of_targetBid e h2) _ hp3
  simp only [paraCore]
  have hcheck : ((findAllN "cit" (replaceInside refIsBad (fun _ => "REF")
      (replaceInside (isNamed "table") (fun _ => "TABLE")
        (replaceInside (isNamed "figure") (fun _ => "FIGURE")
          (replaceInside (isNamed "formula") (fun _ => "FORMULA") para))))).all
      (fun c => (citRefTarget c).isSome)) = true := by
    rw [List.all_eq_true]
    intro c hc
    set p4 := replaceInside refIsBad (fun _ => "REF")
      (replaceInside (isNamed "table") (fun _ => "TABLE")
        (replaceInside (isNamed "figure") (fun _ => "FIGURE")
          (replaceInside (isNamed "formula") (fun _ => "FORMULA") para))) with hp4def
    rw [findAllN_eq_filter] at hc
    have hcm : c ∈ elemsIn p4 := (List.mem_filter.mp hc).1
    have hcn : isNamed "cit" c = true := (List.mem_filter.mp hc).2
    have hcs : c ∈ elemsSelf p4 := by
      cases hq : p4 with
      | text s => rw [hq] at hcm; exact absurd hcm (by simp [elemsIn])
      | elem n a ch =>
        rw [hq] at hcm
        simp only [elemsIn] at hcm
        simp only [elemsSelf, List.mem_cons]
        exact Or.inr hcm
    have hct : citsOkT c = true := citsOkT_hereditary p4 c hcs hp4
    exact goodCit_citRefTarget c (goodCit_of_self c hcn hct)
  rw [hcheck]
  simp [Except.isOk, Except.toBool]

theorem process_paragraph_ok (para : Node) (st : String) (h : citsOkT para = true) :
    (process_paragraph para st).isOk = true := by
  unfold process_paragraph
  have := paraCore_ok para h
  cases hc : paraCore para with
  | error e => rw [hc] at this; simp [Except.isOk, Except.toBool] at this
  | ok r => simp [Except.map, Except.isOk, Except.toBool]

theorem processAbstract_ok (para : Node) (h : citsOkT para = true) :
    (processAbstract para).isOk = true := by
  unfold processAbstract
  have := paraCore_ok para h
  cases hc : paraCore para with
  | error e => rw [hc] at this; simp [Except.isOk, Except.toBool] at this
  | ok r => simp [Except.map, Except.isOk, Except.toBool]

theorem not_self_mem_children (n : String) (a : List (String × String)) (ch : List Node) :
    Node.elem n a ch ∉ ch := by
  intro hmem
  have h1 := List.sizeOf_lt_of_mem hmem
  have h2 : sizeOf ch < sizeOf (Node.elem n a ch) := by
    simp only [Node.elem.sizeOf_spec]
    omega
  omega

theorem citsOkT_of_findAllN (nm : String) (t x : Node) (hx : x ∈ findAllN nm t)
    (h : citsOkT t = true) : citsOkT x = true := by
  rw [findAllN_eq_filter] at hx
  have hxm : x ∈ elemsIn t := (List.mem_filter.mp hx).1
  have hxs : x ∈ elemsSelf t := by
    cases hq : t with
    | text s => rw [hq] at hxm; exact absurd hxm (by simp [elemsIn])
    | elem n a ch =>
      rw [hq] at hxm
      simp only [elemsIn] at hxm
      simp only [elemsSelf, List.mem_cons]
      exact Or.inr hxm
  exact citsOkT_hereditary t x hxs h

theorem citsOkT_child (d c : Node) (hc : c ∈ childrenOf d)
    (h : citsOkT d = true) : citsOkT c = true := by
  cases d with
  | text s => exact absurd hc (by simp [childrenOf])
  | elem n a ch =>
    simp only [childrenOf] at hc
    cases c with
    | text s2 => rfl
    | elem n2 a2 ch2 =>
      exact citsOkT_of_mem ch _ hc (citsOkL_of_citsOkT n a ch h)

theorem div1_child_mem (t d x : Node) (hd : d ∈ topSelf "div0" t)
    (hx : x ∈ childrenOf d) (hn : isNamed "div1" x = true) :
    x ∈ findAllN "div1" t := by
  cases t with
  | text s => exact absurd hd (by simp [topSelf])
  | elem n a ch =>
    rw [findAllN_eq_filter]
    simp only [elemsIn]
    refine List.mem_filter.mpr ⟨?_, hn⟩
    have hxs : x ∈ elemsSelf x := by
      cases x with
      | text s2 => simp [isNamed] at hn
      | elem n2 a2 ch2 => exact elem_mem_elemsSelf n2 a2 ch2
    have hxd : x ∈ elemsSelf d := by
      cases d with
      | text s2 => exact absurd hx (by simp [childrenOf])
      | elem nd ad chd =>
        simp only [childrenOf] at hx
        simp only [elemsSelf, List.mem_cons]
        exact Or.inr (mem_elemsFor_of_mem chd x x hx hxs)
    simp only [topSelf] at hd
    by_cases hn0 : n = "div0"
    · rw [if_pos (by simp [hn0])] at hd
      simp only [List.mem_singleton] at hd
      subst hd
      simp only [elemsSelf, List.mem_cons] at hxd
      rcases hxd with h1 | h1
      · rw [h1] at hx
        simp only [childrenOf] at hx
        exact absurd hx (not_self_mem_children n a ch)
      · exact h1
    · rw [if_neg (by simp [hn0])] at hd
      exact elemsFor_trans ch d (topFor_mem_elemsFor "div0" ch d hd) x hxd

theorem processPs_ok (st : String) :
    ∀ l : List Node, (∀ p ∈ l, citsOkT p = true) → (processPs st l).isOk = true := by
  intro l
  induction l with
  | nil => intro _; rfl
  | cons p rest ih =>
    intro h
    have hp := process_paragraph_ok p st (h p (by simp))
    cases hpp : process_paragraph p st with
    | error e => rw [hpp] at hp; simp [Except.isOk, Except.toBool] at hp
    | ok tb =>
      have hr := ih (fun q hq => h q (by simp [hq]))
      cases hrr : processPs st rest with
      | error e => rw [hrr] at hr; simp [Except.isOk, Except.toBool] at hr
      | ok tbs =>
        simp [processPs, hpp, hrr, Bind.bind, Except.bind, pure, Except.pure,
          Except.isOk, Except.toBool]

theorem processChildren_ok :
    ∀ (l : List Node) (st : String),
      (∀ c ∈ l, citsOkT c = true) →
      (∀ c ∈ l, isNamed "div1" c = true → (findFirstN "head" c).isSome = true) →
      (processChildren st l).isOk = true := by
  intro l
  induction l with
  | nil => intro st _ _; rfl
  | cons el rest ih =>
    intro st hc hh
    have hcrest : ∀ c ∈ rest, citsOkT c = true := fun c h => hc c (by simp [h])
    have hhrest : ∀ c ∈ rest, isNamed "div1" c = true → (findFirstN "head" c).isSome = true :=
      fun c h => hh c (by simp [h])
    cases el with
    | text s0 =>
      simp only [processChildren]
      exact ih st hcrest hhrest
    | elem n a ch =>
      simp only [processChildren]
      by_cases hn1 : n = "head"
      · rw [if_pos hn1]
        exact ih _ hcrest hhrest
      · rw [if_neg hn1]
        by_cases hn2 : n = "p"
        · rw [if_pos hn2]
          have hel := process_paragraph_ok (Node.elem n a ch) st (hc _ (by simp))
          cases hpp : process_paragraph (Node.elem n a ch) st with
          | error e => rw [hpp] at hel; simp [Except.isOk, Except.toBool] at hel
          | ok tb =>
            have hr := ih st hcrest hhrest
            cases hrr : processChildren st rest with
            | error e => rw [hrr] at hr; simp [Except.isOk, Except.toBool] at hr
            | ok r2 =>
              simp [hpp, hrr, Bind.bind, Except.bind, pure, Except.pure,
                Except.isOk, Except.toBool]
        · rw [if_neg hn2]
          by_cases hn3 : n = "div1"
          · rw [if_pos hn3]
            have hhd := hh (Node.elem n a ch) (by simp) (by simp [isNamed, hn3])
            cases hfh : findFirstN "head" (Node.elem n a ch) with
            | none => rw [hfh] at hhd; simp at hhd
            | some hd =>
              simp only
              have hpsok : (processPs (getText hd)
                  (findAllN "p" (Node.elem n a ch))).isOk = true := by
                apply processPs_ok
                intro q hq
                exact citsOkT_of_findAllN "p" (Node.elem n a ch) q hq (hc _ (by simp))
              cases hps : processPs (getText hd) (findAllN "p" (Node.elem n a ch)) with
              | error e => rw [hps] at hpsok; simp [Except.isOk, Except.toBool] at hpsok
              | ok tbs =>
                have hr := ih (getText hd) hcrest hhrest
                cases hrr : processChildren (getText hd) rest with
                | error e => rw [hrr] at hr; simp [Except.isOk, Except.toBool] at hr
                | ok r2 =>
                  simp [hps, hrr, Bind.bind, Except.bind, pure, Except.pure,
                    Except.isOk, Except.toBool]
          · rw [if_neg hn3]
            exact ih st hcrest hhrest

theorem processDivs_ok :
    ∀ (divs : List Node) (st : String),
      (∀ d ∈ divs, citsOkT d = true) →
      (∀ d ∈ divs, ∀ c ∈ childrenOf d, isNamed "div1" c = true →
        (findFirstN "head" c).isSome = true) →
      (processDivs st divs).isOk = true := by
  intro divs
  induction divs with
  | nil => intro st _ _; rfl
  | cons d rest ih =>
    intro st hc hh
    have hch : (processChildren st (childrenOf d)).isOk = true := by
      apply processChildren_ok
      · intro c hcc
        exact citsOkT_child d c hcc (hc d (by simp))
      · intro c hcc hnn
        exact hh d (by simp) c hcc hnn
    cases hcc : processChildren st (childrenOf d) with
    | error e => rw [hcc] at hch; simp [Except.isOk, Except.toBool] at hch
    | ok r1 =>
      have hr := ih r1.2 (fun q hq => hc q (by simp [hq]))
        (fun q hq => hh q (by simp [hq]))
      cases hrr : processDivs r1.2 rest with
      | error e => rw [hrr] at hr; simp [Except.isOk, Except.toBool] at hr
      | ok r2 =>
        simp [processDivs, hcc, hrr, Bind.bind, Except.bind, pure, Except.pure,
          Except.isOk, Except.toBool]

theorem processBody_ok (t : Node) (h2 : citsOkT t = true) (h3 : div1HeadsOk t = true) :
    (processBody t).isOk = true := by
  unfold processBody
  have hok : (processDivs "" (topSelf "div0" t)).isOk = true := by
    apply processDivs_ok
    · intro d hd
      exact citsOkT_hereditary t d (topSelf_mem_elemsSelf "div0" t d hd) h2
    · intro d hd c hcc hnn
      simp only [div1HeadsOk, List.all_eq_true] at h3
      exact h3 c (div1_child_mem t d c hd hcc hnn)
  cases hd : processDivs "" (topSelf "div0" t) with
  | error e => rw [hd] at hok; simp [Except.isOk, Except.toBool] at hok
  | ok r => simp [Except.map, Except.isOk, Except.toBool]

theorem bibFold_ok :
    ∀ (items : List (Node × Option Node)) (m : List (String × String)),
      (items.all (fun bp =>
        match getAttrN bp.1 "id" with
        | none => true
        | some id => id = "" || bp.2.isSome)) = true →
      (bibFold items m).isOk = true := by
  intro items
  induction items with
  | nil => intro m _; rfl
  | cons bp rest ih =>
    intro m h
    rw [List.all_cons, Bool.and_eq_true] at h
    obtain ⟨hbp, hrest⟩ := h
    cases bp with
    | mk bi pctx =>
      simp only [bibFold]
      cases hid : getAttrN bi "id" with
      | none => exact ih m hrest
      | some id =>
        rw [hid] at hbp
        simp only at hbp
        simp only
        by_cases hempty : id = ""
        · rw [if_pos hempty]
          exact ih m hrest
        · rw [if_neg hempty]
          simp only [hempty, decide_eq_false hempty, Bool.false_or] at hbp
          cases hp : pctx with
          | none => rw [hp] at hbp; simp at hbp
          | some p => exact ih _ hrest

theorem processBib_ok (t : Node) (h : bibOk t = true) :
    (processBib (afterNoise t)).isOk = true := by
  unfold processBib
  exact bibFold_ok (collectBibitems (afterNoise t)) [] h

theorem yearScanFuel_subset :
    ∀ (fuel : Nat) (ps : List Node) (i : Nat) (y : String),
      ∀ x ∈ (yearScanFuel fuel ps i y).1, x ∈ ps := by
  intro fuel
  induction fuel with
  | zero => intro ps i y x hx; exact hx
  | succ f ih =>
    intro ps i y x hx
    simp only [yearScanFuel] at hx
    by_cases hi : i < ps.length
    · rw [dif_pos hi] at hx
      by_cases hm : startsWith4Digits (getText ps[i]) = true
      · rw [if_pos hm] at hx
        exact List.mem_of_mem_eraseIdx (ih (ps.eraseIdx i) (i + 1) (getText ps[i]) x hx)
      · rw [if_neg hm] at hx
        exact ih ps (i + 1) y x hx
    · rw [dif_neg hi] at hx
      exact hx

theorem yearStep_subset (ps1 : List Node) (y0 : String) :
    ∀ x ∈ (yearStep ps1 y0).1, x ∈ ps1 := by
  intro x hx
  unfold yearStep at hx
  split at hx
  · exact yearScanFuel_subset _ ps1 0 y0 x hx
  · exact hx

theorem absBlockOf_ok (ps : List Node) (h : ∀ p ∈ ps, citsOkT p = true) :
    (absBlockOf ps).isOk = true := by
  simp only [absBlockOf]
  split
  · rfl
  · apply processAbstract_ok
    cases hg : (ps.getD (idxOfMax (ps.map (fun p => (getText p).data.length))) (Node.text ""))
        with
    | text s => rfl
    | elem n a ch =>
      have : Node.elem n a ch ∈ ps ∨ (Node.elem n a ch : Node) = Node.text "" := by
        rw [← hg]
        unfold List.getD
        cases hq : ps.get? (idxOfMax (ps.map (fun p => (getText p).data.length))) with
        | none => simp
        | some v =>
          simp only [Option.getD_some]
          exact Or.inl (List.get?_mem hq)
      rcases this with h1 | h1
      · exact h _ h1
      · exact absurd h1 (by simp)

theorem authorsStep_ok (ps2 : List Node) (a0 : List AuthorEntry)
    (h : ∀ p ∈ ps2, (process_authors false (pyStrip (getText p))).isOk = true) :
    (authorsStep ps2 a0).isOk = true := by
  unfold authorsStep
  split
  · next hcond =>
    simp only [Bool.and_eq_true, decide_eq_true_eq] at hcond
    have hlt : 1 < ps2.length := hcond.2
    have : ps2.getD 1 (Node.text "") ∈ ps2 := by
      unfold List.getD
      rw [List.get?_eq_getElem?, List.getElem?_eq_getElem hlt]
      simp only [Option.getD_some]
      exact List.getElem_mem hlt
    exact h _ this
  · rfl

theorem abstractStage_ok (ps : List Node) (t0 : String) (a0 : List AuthorEntry) (y0 : String)
    (hps : ∀ p ∈ ps, citsOkT p = true)
    (hau : ∀ p ∈ ps, (process_authors false (pyStrip (getText p))).isOk = true) :
    (abstractStage ps t0 a0 y0).isOk = true := by
  cases ps with
  | nil => rfl
  | cons p0 rest =>
    simp only [abstractStage]
    have hab := absBlockOf_ok (p0 :: rest) hps
    cases habs : absBlockOf (p0 :: rest) with
    | error e => rw [habs] at hab; simp [Except.isOk, Except.toBool] at hab
    | ok absB =>
      have hstep : (authorsStep (yearStep (poolAfterAbs (p0 :: rest)) y0).1 a0).isOk = true := by
        apply authorsStep_ok
        intro p hp
        have h1 : p ∈ poolAfterAbs (p0 :: rest) :=
          yearStep_subset (poolAfterAbs (p0 :: rest)) y0 p hp
        have h2 : p ∈ (p0 :: rest) := by
          unfold poolAfterAbs at h1
          exact List.mem_of_mem_eraseIdx h1
        exact hau p h2
      cases hau2 : authorsStep (yearStep (poolAfterAbs (p0 :: rest)) y0).1 a0 with
      | error e => rw [hau2] at hstep; simp [Except.isOk, Except.toBool] at hstep
      | ok a1 =>
        simp [habs, hau2, Bind.bind, Except.bind, pure, Except.pure,
          Except.isOk, Except.toBool]

/-- Claim C2 is false on the code: a tree whose only paragraph holds a
`cit` tag with no `ref` child makes line 95
(`cite.ref.get('target').upper()`) raise `AttributeError` — the extraction
does not return a `DocumentRecord` for every malformed tree. -/
theorem claim_C2_counterexample :
    extractRecord "x" badCitTree = .error .attributeError := rfl

/-- Claim C2 amended: only the title, author and year lookups are guarded
(`try/except AttributeError`), and they default to `""`/`[]` on an absent
node; the extraction as a whole can raise.  Line 95 raises when a `cit`'s
first surviving `ref` descendant is missing or lacks a `target` — and
earlier passes can create that state, e.g. a `ref` whose `target` does
not start with `bid` is rewritten to the string `REF` by lines 88-90
before the `cit` is read, so even a `cit` that has a `ref` can raise;
line 198 raises for a `div1` with no `head`; line 173 for a bibliography
item carrying an id but no enclosing paragraph; and author parsing raises
`IndexError` on a bare-suffix name fragment (line 41, reached from lines
212 and 286).  The hypotheses below are sufficient conditions for the
extraction to return a `DocumentRecord` without raising (conservative,
not necessary): every `cit` tag contains at least one tag descendant and
all of its tag descendants are `ref` tags with `bid`-prefixed targets, so
that no replacement or removal pass reaches inside any `cit`; every
`div1` has a `head` descendant; every bibliography item with a truthy id
has an enclosing paragraph; and the author node's text as well as the
text of every paragraph in the abstract-stage pool parse without
`IndexError`. -/
theorem claim_C2_amended (id : String) (t : Node)
    (h1 : bibOk t = true)
    (h2 : citsOkT (bodyTree t) = true)
    (h3 : div1HeadsOk (bodyTree t) = true)
    (h4 : (authorsOf (headTree t)).isOk = true)
    (h5 : ∀ p ∈ abstractPool t, (process_authors false (pyStrip (getText p))).isOk = true) :
    (extractRecord id t).isOk = true ∧
      (findFirstN "title" (headTree t) = none → titleOf (headTree t) = "") ∧
      (findFirstN "author" (headTree t) = none → authorsOf (headTree t) = .ok []) ∧
      (findFirstN "year" (headTree t) = none → yearOf (headTree t) = "") := by
  refine ⟨?_, ?_, ?_, ?_⟩
  · simp only [extractRecord]
    have hbib := processBib_ok t h1
    cases hb : processBib (afterNoise t) with
    | error e => rw [hb] at hbib; simp [Except.isOk, Except.toBool] at hbib
    | ok bib =>
      have hbody := processBody_ok (bodyTree t) h2 h3
      cases hbd : processBody (bodyTree t) with
      | error e => rw [hbd] at hbody; simp [Except.isOk, Except.toBool] at hbody
      | ok body =>
        cases hav : authorsOf (headTree t) with
        | error e => rw [hav] at h4; simp [Except.isOk, Except.toBool] at h4
        | ok authors0 =>
          have hhead : citsOkT (headTree t) = true := by
            unfold headTree
            exact citsOk_removeInside _
              (fun e he _ => named_ne "div0" (by decide) e he) _ h2
          have habs : (abstractStage (abstractPool t) (titleOf (headTree t)) authors0
              (yearOf (headTree t))).isOk = true := by
            apply abstractStage_ok
            · intro p hp
              exact citsOkT_of_findAllN "p" (headTree t) p hp hhead
            · exact h5
          cases har : abstractStage (abstractPool t) (titleOf (headTree t)) authors0
              (yearOf (headTree t)) with
          | error e => rw [har] at habs; simp [Except.isOk, Except.toBool] at habs
          | ok rr =>
            simp [hb, hbd, hav, har, Bind.bind, Except.bind, pure, Except.pure,
              Except.isOk, Except.toBool]
  · intro hnone
    simp [titleOf, hnone]
  · intro hnone
    simp [authorsOf, hnone]
  · intro hnone
    simp [yearOf, hnone]

theorem claim_C2_witness :
    (bibOk exTreeMain = true ∧ citsOkT (bodyTree exTreeMain) = true ∧
      div1HeadsOk (bodyTree exTreeMain) = true ∧
      (authorsOf (headTree exTreeMain)).isOk = true ∧
      (∀ p ∈ abstractPool exTreeMain,
        (process_authors false (pyStrip (getText p))).isOk = true)) ∧
      (extractRecord "x" exTreeMain).isOk = true := by
  refine ⟨⟨by decide, by decide, by decide, by decide, by decide⟩, ?_⟩
  exact (claim_C2_amended "x" exTreeMain (by decide) (by decide) (by decide)
    (by decide) (by decide)).1
